import Mathlib

set_option maxHeartbeats 1000000

/-!
Shallow embedding of `uncodec/modules/useanet.py` (the USEANet encoder/decoder
architecture) and proofs about it.

The file models the construction of the two module stacks
(`USEANetEncoder.__init__`, `USEANetDecoder.__init__`) as Lean functions that
build explicit layer lists, and the two `forward` methods as folds over those
lists.  Tensors are tracked at the level of their shapes (batch, channels,
time); the underlying convolution / recurrent building blocks (`SConv1d`,
`SConvTranspose1d`, `SLSTM`, `SEANetResnetBlock`) are external collaborators
whose implementations are not part of the repository, so their shape behaviour
is modelled from the spec (see `applyLayer`).  The scaled-sum fusion step is
additionally modelled at the level of tensor values (see `scaledSumFuse`) to
settle the claim about the zero-initialized scale.
-/

deriving instance DecidableEq for Except

/-- Shape of a 3-d tensor flowing through the network: batch axis, channel
axis and time axis. -/
structure Shape where
  batch : Nat
  channels : Nat
  time : Nat
deriving DecidableEq

/-- The layer kinds appearing in the encoder/decoder stacks, with the
constructor arguments that determine their shape behaviour.  `actLayer name`
is an instance of the activation class obtained by `getattr(nn, name)`; its
`name` is the Python class `__name__` that the forward passes compare against
the literal string `"ELU"`. -/
inductive Layer where
  | sconv (cin cout kernel stride : Nat)
  | sconvT (cin cout kernel stride : Nat)
  | resblock (dim : Nat) (kernel_sizes dilations : List Nat)
  | slstm (dim num_layers : Nat)
  | actLayer (name : String)
deriving DecidableEq

/-- The Python `__class__.__name__` of a layer, as used by both forward
passes to detect fusion points. -/
def Layer.className : Layer → String
  | .sconv _ _ _ _ => "SConv1d"
  | .sconvT _ _ _ _ => "SConvTranspose1d"
  | .resblock _ _ _ => "SEANetResnetBlock"
  | .slstm _ _ => "SLSTM"
  | .actLayer name => name

/-- Modelled from the spec: the nonlinearity classes of the framework
namespace `nn` against which activation names are resolved by
`getattr(nn, activation)`.  A name outside this list fails to resolve
(AttributeError at construction). -/
def nnActivationNames : List String :=
  ["ELU", "ReLU", "GELU", "Tanh", "Sigmoid", "LeakyReLU", "SiLU", "Hardtanh", "Softplus"]

/-- A skip-fusion adapter layer, as built by `USEANetDecoder.__init__`.

Here `catLinear cin cout` is `torch.nn.Linear(cin, cout)` (strategy
  `"cat_linear"`);
* `scaledSum cin cout scale` is
  `torch.nn.Sequential(torch.nn.Linear(cin, cout), ScaleLayer())` (strategy
  `"scaled_sum"`), where `scale` records the `ScaleLayer` parameter, whose
  `initial_scale` default is `0.`. -/
inductive Adapter where
  | catLinear (cin cout : Nat)
  | scaledSum (cin cout : Nat) (scale : ℚ)
deriving DecidableEq

/-- Constructor arguments of `USEANetEncoder.__init__`, with the source's
default values (the `norm`/padding/`compress`/`true_skip` arguments only
parametrize the external building blocks and are not tracked). -/
structure EncArgs where
  channels : Nat := 1
  dimension : Nat := 128
  n_filters : Nat := 32
  n_residual_layers : Nat := 1
  ratios : List Nat := [8, 5, 4, 2]
  activation : String := "ELU"
  kernel_size : Nat := 7
  last_kernel_size : Nat := 7
  residual_kernel_size : Nat := 3
  dilation_base : Nat := 2
  lstm : Nat := 2

/-- Constructor arguments of `USEANetDecoder.__init__`, with the source's
default values. -/
structure DecArgs where
  channels : Nat := 1
  dimension : Nat := 128
  n_filters : Nat := 32
  n_residual_layers : Nat := 1
  ratios : List Nat := [8, 5, 4, 2]
  activation : String := "ELU"
  final_activation : Option String := none
  kernel_size : Nat := 7
  last_kernel_size : Nat := 7
  residual_kernel_size : Nat := 3
  dilation_base : Nat := 2
  lstm : Nat := 2
  skip_connection_type : String := "cat_linear"
  n_filters_encoder : Nat := 32

/-- The downsampling loop of `USEANetEncoder.__init__` (`for i, ratio in
enumerate(self.ratios)`), threading the running `mult` exactly as the source
does (`mult *= 2` at the end of each iteration).  Returns the stage layers and
the final value of `mult`. -/
def encLoop (a : EncArgs) : List Nat → Nat → List Layer × Nat
  | [], mult => ([], mult)
  | ratio :: rs, mult =>
      let stage :=
        ((List.range a.n_residual_layers).map fun j =>
          Layer.resblock (mult * a.n_filters) [a.residual_kernel_size, 1]
            [a.dilation_base ^ j, 1])
        ++ [Layer.actLayer a.activation,
            Layer.sconv (mult * a.n_filters) (mult * a.n_filters * 2) (ratio * 2) ratio]
      let rest := encLoop a rs (mult * 2)
      (stage ++ rest.1, rest.2)

/-- Model of `USEANetEncoder.__init__`: resolves the activation class, then builds the
layer stack.  `self.ratios = list(reversed(ratios))`, so the loop runs over
the reversed ratio list. -/
def USEANetEncoder.mk (a : EncArgs) : Except String (List Layer) :=
  if a.activation ∈ nnActivationNames then
    let down := encLoop a a.ratios.reverse 1
    .ok (Layer.sconv a.channels (1 * a.n_filters) a.kernel_size 1 ::
      (down.1
        ++ ((if a.lstm ≠ 0 then [Layer.slstm (down.2 * a.n_filters) a.lstm] else [])
            ++ [Layer.actLayer a.activation,
                Layer.sconv (down.2 * a.n_filters) a.dimension a.last_kernel_size 1])))
  else .error "AttributeError"

/-- The upsampling loop of `USEANetDecoder.__init__`, threading `mult`
(`mult //= 2` at the end of each iteration) and accumulating both the stage
layers and the per-stage adaptation layers.  An unrecognized
`skip_connection_type` raises in the first iteration, exactly as in the
source. -/
def decLoop (a : DecArgs) : List Nat → Nat → Except String (List Layer × List Adapter)
  | [], _ => .ok ([], [])
  | ratio :: rs, mult =>
      let stageHead :=
        [Layer.actLayer a.activation,
         Layer.sconvT (mult * a.n_filters) (mult * a.n_filters / 2) (ratio * 2) ratio]
      let resLayers :=
        (List.range a.n_residual_layers).map fun j =>
          Layer.resblock (mult * a.n_filters / 2) [a.residual_kernel_size, 1]
            [a.dilation_base ^ j, 1]
      if a.skip_connection_type = "cat_linear" then
        match decLoop a rs (mult / 2) with
        | .error e => .error e
        | .ok (restL, restA) =>
            .ok (stageHead ++ resLayers ++ restL,
                 Adapter.catLinear (2 * mult * a.n_filters) (mult * a.n_filters) :: restA)
      else if a.skip_connection_type = "scaled_sum" then
        match decLoop a rs (mult / 2) with
        | .error e => .error e
        | .ok (restL, restA) =>
            .ok (stageHead ++ resLayers ++ restL,
                 Adapter.scaledSum (mult * a.n_filters_encoder) (mult * a.n_filters) 0 :: restA)
      else .error "Unrecognized skip_connection_type"

/-- The adaptation layer appended after the final convolution block of
`USEANetDecoder.__init__` (lines 190–195). -/
def finalAdapterOf (a : DecArgs) : Except String Adapter :=
  if a.skip_connection_type = "cat_linear" then
    .ok (Adapter.catLinear (a.n_filters + a.n_filters_encoder) a.n_filters)
  else if a.skip_connection_type = "scaled_sum" then
    .ok (Adapter.scaledSum a.n_filters_encoder a.n_filters 0)
  else .error "Unrecognized skip_connection_type"

/-- Model of `USEANetDecoder.__init__`: resolves the activation class, builds the
initial convolution, the optional recurrent layer, the upsampling stages with
their adaptation layers, the final nonlinearity and convolution, the final
adaptation layer, and the optional final activation, in exactly the source's
order of effects (so an unrecognized `skip_connection_type` raises before the
optional final activation is resolved). -/
def USEANetDecoder.mk (a : DecArgs) : Except String (List Layer × List Adapter) :=
  if a.activation ∈ nnActivationNames then
    let mult := 2 ^ a.ratios.length
    let head := Layer.sconv a.dimension (mult * a.n_filters) a.kernel_size 1 ::
      (if a.lstm ≠ 0 then [Layer.slstm (mult * a.n_filters) a.lstm] else [])
    match decLoop a a.ratios mult with
    | .error e => .error e
    | .ok (stagesL, stagesA) =>
        match finalAdapterOf a with
        | .error e => .error e
        | .ok finalAd =>
            match a.final_activation with
            | none => .ok (head ++ stagesL ++
                [Layer.actLayer a.activation,
                 Layer.sconv a.n_filters a.channels a.last_kernel_size 1],
                stagesA ++ [finalAd])
            | some fa =>
                if fa ∈ nnActivationNames then
                  .ok (head ++ stagesL ++
                    [Layer.actLayer a.activation,
                     Layer.sconv a.n_filters a.channels a.last_kernel_size 1,
                     Layer.actLayer fa],
                    stagesA ++ [finalAd])
                else .error "AttributeError"
  else .error "AttributeError"

/-- Modelled from the spec: the shape behaviour of the building-block layers,
whose implementations (`SConv1d`, `SConvTranspose1d`, `SLSTM`,
`SEANetResnetBlock`) are external collaborators not contained in the
repository.  Per the spec: a strided convolution downsamples time by its
stride (the spec asserts exact division only for lengths that are multiples of
the stride, so other lengths are rejected here), a transposed convolution
upsamples time by its stride, residual blocks and the recurrent layer preserve
shape, and activations are pointwise.  A layer rejects an input whose channel
width differs from its declared input width. -/
def applyLayer : Layer → Shape → Except String Shape
  | .sconv cin cout _ stride, ⟨b, c, t⟩ =>
      if c = cin ∧ stride ∣ t then .ok ⟨b, cout, t / stride⟩ else .error "shape mismatch"
  | .sconvT cin cout _ stride, ⟨b, c, t⟩ =>
      if c = cin then .ok ⟨b, cout, t * stride⟩ else .error "shape mismatch"
  | .resblock dim _ _, ⟨b, c, t⟩ =>
      if c = dim then .ok ⟨b, c, t⟩ else .error "shape mismatch"
  | .slstm dim _, ⟨b, c, t⟩ =>
      if c = dim then .ok ⟨b, c, t⟩ else .error "shape mismatch"
  | .actLayer _, s => .ok s

/-- Model of `USEANetEncoder.forward` (source lines 84–91): fold the layer list over
the input, appending the running tensor to the activation list right after
every layer whose class name is the literal `"ELU"`.  Returns the final tensor
and the activation list, shape-level. -/
def USEANetEncoder.forward : List Layer → Shape → Except String (Shape × List Shape)
  | [], x => .ok (x, [])
  | l :: ls, x =>
      match applyLayer l x with
      | .error e => .error e
      | .ok x' =>
          match USEANetEncoder.forward ls x' with
          | .error e => .error e
          | .ok (out, acts) =>
              if l.className = "ELU" then .ok (out, x' :: acts) else .ok (out, acts)

/-- Python negative indexing `activations[-1-i]` for `i ≥ 0`: the element at
position `length - 1 - i`, an `IndexError` when `i ≥ length`. -/
def pyNegGet (l : List Shape) (i : Nat) : Except String Shape :=
  if h : i < l.length then .ok (l.get ⟨l.length - 1 - i, by omega⟩)
  else .error "IndexError"

/-- Python indexing `adaptation_layers[i]`: an `IndexError` when
`i ≥ length`. -/
def pyGet (l : List Adapter) (i : Nat) : Except String Adapter :=
  if h : i < l.length then .ok (l.get ⟨i, h⟩) else .error "IndexError"

/-- Channel-width behaviour of an adaptation layer applied (after
`transpose(1,2)`) to a tensor whose last axis has width `c`: the inner
`torch.nn.Linear(cin, cout)` requires `c = cin` and produces width `cout`
(a `ScaleLayer` is pointwise). -/
def adapterOut : Adapter → Nat → Except String Nat
  | .catLinear cin cout, c => if c = cin then .ok cout else .error "shape mismatch"
  | .scaledSum cin cout _, c => if c = cin then .ok cout else .error "shape mismatch"

/-- One fusion step of `USEANetDecoder.forward` (source lines 213–220),
shape-level, at fusion point `i` on the tensor `x` just produced by an ELU
layer.  Returns the fused tensor's shape together with the shape of the
consumed encoder activation (`none` when `skip_connection_type` matches
neither branch, in which case the source performs no fusion).

* `cat_linear`: `torch.cat([x, activations[-1-i]], axis=1)` requires equal
  batch and time axes and adds the channel widths; then
  `transpose(1,2)`, `adaptation_layers[i]`, `transpose(1,2)`.
* `scaled_sum`: `x + transpose(adaptation_layers[i](transpose(activations[-1-i])))`;
  the elementwise addition requires equal shapes (broadcasting is not
  modelled: in this architecture the added tensors have equal widths). -/
def fuseStep (sct : String) (adapters : List Adapter) (acts : List Shape) (i : Nat)
    (x : Shape) : Except String (Shape × Option Shape) :=
  if sct = "cat_linear" then
    match pyNegGet acts i with
    | .error e => .error e
    | .ok skipS =>
        if x.batch = skipS.batch ∧ x.time = skipS.time then
          match pyGet adapters i with
          | .error e => .error e
          | .ok ad =>
              match adapterOut ad (x.channels + skipS.channels) with
              | .error e => .error e
              | .ok cout => .ok (⟨x.batch, cout, x.time⟩, some skipS)
        else .error "shape mismatch"
  else if sct = "scaled_sum" then
    match pyNegGet acts i with
    | .error e => .error e
    | .ok skipS =>
        match pyGet adapters i with
        | .error e => .error e
        | .ok ad =>
            match adapterOut ad skipS.channels with
            | .error e => .error e
            | .ok cout =>
                if x.batch = skipS.batch ∧ x.time = skipS.time ∧ x.channels = cout then
                  .ok (x, some skipS)
                else .error "shape mismatch"
  else .ok (x, none)

/-- An observable step of the decoder's forward loop: application of a layer,
or a completed skip fusion at fusion point `i` consuming the recorded encoder
activation. -/
inductive Op where
  | app (l : Layer)
  | fuse (i : Nat) (consumed : Option Shape)
deriving DecidableEq

/-- Model of `USEANetDecoder.forward` (source lines 207–225), instrumented: the loop
over the layer list, branching on the class name `"ELU"` exactly as the
source, with the fusion-point counter `i` advanced once per completed ELU
branch (`i += 1` runs after the fusion lines, so a fusion that raises leaves
`i` unchanged).  Returns the result (the final tensor's shape, or the raised
error), together with the final value of the counter `i` and the list of
executed operations. -/
def USEANetDecoder.forward (sct : String) (adapters : List Adapter) (acts : List Shape) :
    List Layer → Shape → Nat → Except String Shape × Nat × List Op
  | [], x, i => (.ok x, i, [])
  | l :: ls, x, i =>
      if l.className = "ELU" then
        match applyLayer l x with
        | .error e => (.error e, i, [])
        | .ok x1 =>
            match fuseStep sct adapters acts i x1 with
            | .error e => (.error e, i, [.app l])
            | .ok (x2, consumed) =>
                let rest := USEANetDecoder.forward sct adapters acts ls x2 (i + 1)
                (rest.1, rest.2.1, .app l :: .fuse i consumed :: rest.2.2)
      else
        match applyLayer l x with
        | .error e => (.error e, i, [])
        | .ok x1 =>
            let rest := USEANetDecoder.forward sct adapters acts ls x1 i
            (rest.1, rest.2.1, .app l :: rest.2.2)

/-- Construct the encoder and run its forward pass. -/
def USEANet.encode (a : EncArgs) (x : Shape) : Except String (Shape × List Shape) :=
  match USEANetEncoder.mk a with
  | .error e => .error e
  | .ok layers => USEANetEncoder.forward layers x

/-- Construct the decoder and run its forward pass on an encoder output pair
(latent, activations). -/
def USEANet.decode (a : DecArgs) (z : Shape × List Shape) :
    Except String Shape × Nat × List Op :=
  match USEANetDecoder.mk a with
  | .error e => (.error e, 0, [])
  | .ok (layers, adapters) =>
      USEANetDecoder.forward a.skip_connection_type adapters z.2 layers z.1 0

/-- The completed fusions of an operation trace, in execution order: fusion
point index paired with the consumed encoder activation. -/
def fusesOf : List Op → List (Nat × Option Shape)
  | [] => []
  | .fuse i c :: tr => (i, c) :: fusesOf tr
  | .app _ :: tr => fusesOf tr

/-- The activation shapes captured by the encoder's downsampling loop when it
starts at multiplier `mult` on a tensor of time length `t`: one capture per
stage (taken right before each downsampling convolution) when the configured
activation class is `ELU`, none otherwise. -/
def encCaps (a : EncArgs) (b : Nat) : List Nat → Nat → Nat → List Shape
  | [], _, _ => []
  | r :: rs, mult, t =>
      (if a.activation = "ELU" then [⟨b, mult * a.n_filters, t⟩] else [])
      ++ encCaps a b rs (mult * 2) (t / r)

/-- The capture made at the encoder's final nonlinearity (right before the
last projection convolution), when the activation class is `ELU`. -/
def encFinalCap (a : EncArgs) (b k : Nat) : List Shape :=
  if a.activation = "ELU" then [⟨b, 2 ^ a.ratios.length * a.n_filters, k⟩] else []

/-- The adaptation layer built by the decoder's upsampling loop at multiplier
`mult`, for a supported `skip_connection_type`. -/
def stageAdapter (a : DecArgs) (mult : Nat) : Adapter :=
  if a.skip_connection_type = "cat_linear" then
    Adapter.catLinear (2 * mult * a.n_filters) (mult * a.n_filters)
  else Adapter.scaledSum (mult * a.n_filters_encoder) (mult * a.n_filters) 0

/-- The layers built by the decoder's upsampling loop (the first component of
`decLoop`'s result, for a supported `skip_connection_type`). -/
def decLayersList (a : DecArgs) : List Nat → Nat → List Layer
  | [], _ => []
  | ratio :: rs, mult =>
      [Layer.actLayer a.activation,
       Layer.sconvT (mult * a.n_filters) (mult * a.n_filters / 2) (ratio * 2) ratio]
      ++ ((List.range a.n_residual_layers).map fun j =>
            Layer.resblock (mult * a.n_filters / 2) [a.residual_kernel_size, 1]
              [a.dilation_base ^ j, 1])
      ++ decLayersList a rs (mult / 2)

/-- The adaptation layers built by the decoder's upsampling loop (the second
component of `decLoop`'s result, for a supported `skip_connection_type`). -/
def adaptersList (a : DecArgs) : List Nat → Nat → List Adapter
  | [], _ => []
  | _ :: rs, mult => stageAdapter a mult :: adaptersList a rs (mult / 2)

/-- The operations executed by the decoder's forward pass across the
upsampling stages: per stage, the nonlinearity, then the skip fusion, then
the transposed convolution, then the residual blocks. -/
def decStagesOps (a : DecArgs) (b : Nat) : List Nat → Nat → Nat → Nat → List Op
  | [], _, _, _ => []
  | ratio :: rs, mult, k, i =>
      Op.app (Layer.actLayer a.activation) ::
      Op.fuse i (some ⟨b, mult * a.n_filters, k⟩) ::
      Op.app (Layer.sconvT (mult * a.n_filters) (mult * a.n_filters / 2) (ratio * 2) ratio) ::
      (((List.range a.n_residual_layers).map fun j =>
          Op.app (Layer.resblock (mult * a.n_filters / 2) [a.residual_kernel_size, 1]
            [a.dilation_base ^ j, 1]))
        ++ decStagesOps a b rs (mult / 2) (k * ratio) (i + 1))

/-- The decoder's layer stack up to (and including) the final convolution:
initial projection, optional recurrent layer, the upsampling stages, the
final nonlinearity and the final convolution. -/
def decMainLayers (a : DecArgs) : List Layer :=
  (Layer.sconv a.dimension (2 ^ a.ratios.length * a.n_filters) a.kernel_size 1 ::
    (if a.lstm ≠ 0 then [Layer.slstm (2 ^ a.ratios.length * a.n_filters) a.lstm] else []))
  ++ (decLayersList a a.ratios (2 ^ a.ratios.length)
  ++ [Layer.actLayer a.activation, Layer.sconv a.n_filters a.channels a.last_kernel_size 1])

/-- The decoder's optional final activation layer. -/
def decFinLayers (a : DecArgs) : List Layer :=
  match a.final_activation with
  | none => []
  | some fa => [Layer.actLayer fa]

/-- The value of the final adaptation layer, for a supported
`skip_connection_type`. -/
def finalAdapterVal (a : DecArgs) : Adapter :=
  if a.skip_connection_type = "cat_linear" then
    Adapter.catLinear (a.n_filters + a.n_filters_encoder) a.n_filters
  else Adapter.scaledSum a.n_filters_encoder a.n_filters 0

/-- The decoder's full adaptation-layer list: one per stage plus the final
one. -/
def decAdapters (a : DecArgs) : List Adapter :=
  adaptersList a a.ratios (2 ^ a.ratios.length) ++ [finalAdapterVal a]

/-- The operations executed by the decoder's forward pass over
`decMainLayers`. -/
def decMainOps (a : DecArgs) (b k : Nat) : List Op :=
  Op.app (Layer.sconv a.dimension (2 ^ a.ratios.length * a.n_filters) a.kernel_size 1) ::
  ((if a.lstm ≠ 0 then [Op.app (Layer.slstm (2 ^ a.ratios.length * a.n_filters) a.lstm)]
    else [])
   ++ (decStagesOps a b a.ratios (2 ^ a.ratios.length) k 0
   ++ [Op.app (Layer.actLayer a.activation),
       Op.fuse a.ratios.length (some ⟨b, a.n_filters, k * a.ratios.prod⟩),
       Op.app (Layer.sconv a.n_filters a.channels a.last_kernel_size 1)]))

/-- A value-level 3-d tensor over the rationals (the numeric idealization of
the framework's float tensors), indexed batch/axis-1/axis-2. -/
def VTensor := Nat → Nat → Nat → ℚ

/-- Value-level `torch.transpose(x, 1, 2)`. -/
def transpose12 (v : VTensor) : VTensor := fun bi i j => v bi j i

/-- Modelled from the spec: `torch.nn.Linear(cin, cout)` applied along the
last axis: `y[bi][t][o] = (Σ c < cin, W[o][c] * x[bi][t][c]) + bias[o]`. -/
def linearApply (cin : Nat) (W : Nat → Nat → ℚ) (bias : Nat → ℚ) (v : VTensor) : VTensor :=
  fun bi t o => (((List.range cin).map fun c => W o c * v bi t c).sum) + bias o

/-- Model of `ScaleLayer.forward` (source lines 98–99): `x * self.scale`. -/
def scaleLayerApply (scale : ℚ) (v : VTensor) : VTensor := fun bi t o => v bi t o * scale

/-- The `scaled_sum` fusion of `USEANetDecoder.forward` (source lines
218–220) at value level, with the adapter
`Sequential(Linear(cin, cout), ScaleLayer(scale))`:
`x + transpose(ScaleLayer(Linear(transpose(xskip))))`. -/
def scaledSumFuse (cin : Nat) (W : Nat → Nat → ℚ) (bias : Nat → ℚ) (scale : ℚ)
    (x xskip : VTensor) : VTensor :=
  fun bi c t =>
    x bi c t +
      transpose12 (scaleLayerApply scale (linearApply cin W bias (transpose12 xskip))) bi c t

/-- The encoder's downsampling stages as the spec words them: the supplied
ratio list is processed in reverse order; the stage at (zero-based) index `i`
works at channel width `2 ^ i * n_filters`, applies `n_residual_layers`
residual blocks whose block `j` uses dilation `dilation_base ^ j`, then the
nonlinearity, then a strided convolution with kernel size twice the ratio and
stride the ratio that doubles the channel width. -/
def specEncStages (a : EncArgs) : Nat → List Nat → List Layer
  | _, [] => []
  | i, r :: rs =>
      ((List.range a.n_residual_layers).map fun j =>
        Layer.resblock (2 ^ i * a.n_filters) [a.residual_kernel_size, 1]
          [a.dilation_base ^ j, 1])
      ++ ([Layer.actLayer a.activation,
           Layer.sconv (2 ^ i * a.n_filters) (2 * (2 ^ i * a.n_filters)) (r * 2) r]
      ++ specEncStages a (i + 1) rs)

/-- The encoder's layer stack as the spec words it: initial convolution to
the base width, the downsampling stages over the reversed ratio list, the
optional recurrent layer, then the final nonlinearity and projection
convolution at width `2 ^ (number of stages) * n_filters`. -/
def specEncoderModel (a : EncArgs) : List Layer :=
  Layer.sconv a.channels a.n_filters a.kernel_size 1 ::
  (specEncStages a 0 a.ratios.reverse
   ++ ((if a.lstm ≠ 0 then [Layer.slstm (2 ^ a.ratios.length * a.n_filters) a.lstm] else [])
   ++ [Layer.actLayer a.activation,
       Layer.sconv (2 ^ a.ratios.length * a.n_filters) a.dimension a.last_kernel_size 1]))

/-- A small concrete encoder configuration (one stage, ratio 2, base width 1,
latent width 2, one recurrent layer) with the default ELU activation. -/
def aeW : EncArgs where
  channels := 1
  dimension := 2
  n_filters := 1
  ratios := [2]
  kernel_size := 3
  last_kernel_size := 3
  lstm := 1

/-- The decoder configuration matched to `aeW` (cat_linear skips). -/
def adW : DecArgs where
  channels := 1
  dimension := 2
  n_filters := 1
  ratios := [2]
  kernel_size := 3
  last_kernel_size := 3
  lstm := 1
  n_filters_encoder := 1

/-- Variant of `aeW` with a ReLU activation. -/
def aeR : EncArgs := { aeW with activation := "ReLU" }

/-- Variant of `adW` with a ReLU activation. -/
def adR : DecArgs := { adW with activation := "ReLU" }

/-- Variant of `adW` with `final_activation := "ELU"`. -/
def adE : DecArgs := { adW with final_activation := some "ELU" }

/-- Variant of `adW` with `skip_connection_type := "scaled_sum"`. -/
def adWs : DecArgs := { adW with skip_connection_type := "scaled_sum" }

theorem encLoop_snd (a : EncArgs) (rs : List Nat) (m : Nat) :
    (encLoop a rs m).2 = 2 ^ rs.length * m := by
  induction rs generalizing m with
  | nil => simp [encLoop]
  | cons r rs ih =>
      simp only [encLoop, ih, List.length_cons, pow_succ]
      ring

theorem enc_forward_append (l1 l2 : List Layer) (x : Shape) :
    USEANetEncoder.forward (l1 ++ l2) x =
      match USEANetEncoder.forward l1 x with
      | .error e => .error e
      | .ok (y, a1) =>
          match USEANetEncoder.forward l2 y with
          | .error e => .error e
          | .ok (z, a2) => .ok (z, a1 ++ a2) := by
  induction l1 generalizing x with
  | nil =>
      simp only [List.nil_append, USEANetEncoder.forward]
      cases h : USEANetEncoder.forward l2 x with
      | error e => rfl
      | ok p => cases p; rfl
  | cons l ls ih =>
      cases h : applyLayer l x with
      | error e => simp [USEANetEncoder.forward, h]
      | ok x' =>
          simp only [List.cons_append, USEANetEncoder.forward, h, List.append_eq]
          rw [ih]
          cases h1 : USEANetEncoder.forward ls x' with
          | error e => rfl
          | ok p =>
              obtain ⟨y, a1⟩ := p
              cases h2 : USEANetEncoder.forward l2 y with
              | error e =>
                  by_cases hc : l.className = "ELU" <;> simp [hc, h2]
              | ok q =>
                  obtain ⟨z, a2⟩ := q
                  by_cases hc : l.className = "ELU" <;> simp [hc, h2]

theorem enc_forward_preserving (L : List Layer) (s : Shape)
    (h : ∀ l ∈ L, applyLayer l s = .ok s ∧ l.className ≠ "ELU") :
    USEANetEncoder.forward L s = .ok (s, []) := by
  induction L with
  | nil => rfl
  | cons l ls ih =>
      have h1 := h l (by simp)
      have h2 : USEANetEncoder.forward ls s = .ok (s, []) :=
        ih fun l' hl' => h l' (by simp [hl'])
      simp [USEANetEncoder.forward, h1.1, h2, h1.2]

theorem encLoop_forward (a : EncArgs) (rs : List Nat) (m k b : Nat)
    (hr : ∀ r ∈ rs, 0 < r) :
    USEANetEncoder.forward (encLoop a rs m).1 ⟨b, m * a.n_filters, k * rs.prod⟩ =
      .ok (⟨b, 2 ^ rs.length * (m * a.n_filters), k⟩, encCaps a b rs m (k * rs.prod)) := by
  induction rs generalizing m k with
  | nil =>
      simp [encLoop, USEANetEncoder.forward, encCaps]
  | cons r rs ih =>
      have hr0 : 0 < r := hr r (by simp)
      have hdvd : r ∣ k * (r * rs.prod) := ⟨k * rs.prod, by ring⟩
      have hdiv : k * (r * rs.prod) / r = k * rs.prod := by
        rw [show k * (r * rs.prod) = r * (k * rs.prod) by ring]
        exact Nat.mul_div_cancel_left _ hr0
      have hres : USEANetEncoder.forward
          ((List.range a.n_residual_layers).map fun j =>
            Layer.resblock (m * a.n_filters) [a.residual_kernel_size, 1]
              [a.dilation_base ^ j, 1]) ⟨b, m * a.n_filters, k * (r * rs.prod)⟩ =
          .ok (⟨b, m * a.n_filters, k * (r * rs.prod)⟩, []) := by
        apply enc_forward_preserving
        intro l hl
        simp only [List.mem_map] at hl
        obtain ⟨j, _, rfl⟩ := hl
        constructor
        · simp [applyLayer]
        · simp [Layer.className]
      have hstep' : USEANetEncoder.forward (encLoop a rs (m * 2)).1
          ⟨b, m * a.n_filters * 2, k * rs.prod⟩ =
          .ok (⟨b, 2 ^ rs.length * (m * 2 * a.n_filters), k⟩,
               encCaps a b rs (m * 2) (k * rs.prod)) := by
        rw [show m * a.n_filters * 2 = m * 2 * a.n_filters by ring]
        exact ih (m * 2) k fun r' h' => hr r' (by simp [h'])
      have hpow : 2 ^ rs.length * (m * 2 * a.n_filters) =
          2 ^ (r :: rs).length * (m * a.n_filters) := by
        simp only [List.length_cons, pow_succ]
        ring
      simp only [List.prod_cons, encLoop, List.append_assoc]
      rw [enc_forward_append, hres]
      simp only [List.cons_append, List.nil_append, USEANetEncoder.forward, applyLayer,
        Layer.className, hdvd, and_true, if_pos, hdiv, hstep']
      by_cases hact : a.activation = "ELU" <;>
        simp [hact, encCaps, hstep', hpow, hdiv, List.prod_cons]

theorem encCaps_length_elu (a : EncArgs) (b : Nat) (rs : List Nat) (m t : Nat)
    (h : a.activation = "ELU") : (encCaps a b rs m t).length = rs.length := by
  induction rs generalizing m t with
  | nil => rfl
  | cons r rs ih => simp [encCaps, h, ih]

theorem encCaps_nonELU (a : EncArgs) (b : Nat) (rs : List Nat) (m t : Nat)
    (h : a.activation ≠ "ELU") : encCaps a b rs m t = [] := by
  induction rs generalizing m t with
  | nil => rfl
  | cons r rs ih => simp [encCaps, h, ih]

/-- Master characterization of the encoder: under a resolvable activation
name and positive ratios, construction succeeds and the forward pass on an
input whose time length is a multiple of the ratio product returns the latent
shape `(b, dimension, k)` together with the stage captures followed by the
final capture. -/
theorem encoder_run (a : EncArgs) (b k : Nat) (hr : ∀ r ∈ a.ratios, 0 < r)
    (hact : a.activation ∈ nnActivationNames) :
    ∃ L, USEANetEncoder.mk a = .ok L ∧
      USEANetEncoder.forward L ⟨b, a.channels, k * a.ratios.prod⟩ =
        .ok (⟨b, a.dimension, k⟩,
          encCaps a b a.ratios.reverse 1 (k * a.ratios.prod) ++ encFinalCap a b k) := by
  have hrr : ∀ r ∈ a.ratios.reverse, 0 < r := fun r h => hr r (List.mem_reverse.mp h)
  have hprod : a.ratios.reverse.prod = a.ratios.prod := List.prod_reverse a.ratios
  have hloop := encLoop_forward a a.ratios.reverse 1 k b hrr
  rw [hprod] at hloop
  unfold USEANetEncoder.mk
  rw [if_pos hact]
  refine ⟨_, rfl, ?_⟩
  have hsnd : (encLoop a a.ratios.reverse 1).2 = 2 ^ a.ratios.length * 1 := by
    rw [encLoop_snd, List.length_reverse]
  have hw : 2 ^ a.ratios.reverse.length * (1 * a.n_filters) =
      (encLoop a a.ratios.reverse 1).2 * a.n_filters := by
    rw [hsnd, List.length_reverse]; ring
  have htail : USEANetEncoder.forward
      ((if a.lstm ≠ 0 then
          [Layer.slstm ((encLoop a a.ratios.reverse 1).2 * a.n_filters) a.lstm] else [])
        ++ [Layer.actLayer a.activation,
            Layer.sconv ((encLoop a a.ratios.reverse 1).2 * a.n_filters) a.dimension
              a.last_kernel_size 1])
      ⟨b, 2 ^ a.ratios.reverse.length * (1 * a.n_filters), k⟩ =
      .ok (⟨b, a.dimension, k⟩, encFinalCap a b k) := by
    have hact2 : USEANetEncoder.forward
        [Layer.actLayer a.activation,
         Layer.sconv ((encLoop a a.ratios.reverse 1).2 * a.n_filters) a.dimension
           a.last_kernel_size 1]
        ⟨b, 2 ^ a.ratios.reverse.length * (1 * a.n_filters), k⟩ =
        .ok (⟨b, a.dimension, k⟩, encFinalCap a b k) := by
      simp only [USEANetEncoder.forward, applyLayer, Layer.className, hw, encFinalCap]
      by_cases hel : a.activation = "ELU" <;>
        simp [hel, hw, hsnd, List.length_reverse, Nat.div_one]
    by_cases hl : a.lstm = 0
    · simpa [hl] using hact2
    · rw [if_pos hl]
      rw [enc_forward_append]
      have hlstm : USEANetEncoder.forward
          [Layer.slstm ((encLoop a a.ratios.reverse 1).2 * a.n_filters) a.lstm]
          ⟨b, 2 ^ a.ratios.reverse.length * (1 * a.n_filters), k⟩ =
          .ok (⟨b, 2 ^ a.ratios.reverse.length * (1 * a.n_filters), k⟩, []) := by
        rw [hw]
        simp [USEANetEncoder.forward, applyLayer, Layer.className]
      rw [hlstm]
      dsimp only
      rw [hact2]
      simp
  have hhead : applyLayer (Layer.sconv a.channels (1 * a.n_filters) a.kernel_size 1)
      ⟨b, a.channels, k * a.ratios.prod⟩ =
      .ok ⟨b, 1 * a.n_filters, k * a.ratios.prod⟩ := by
    simp [applyLayer]
  have hrest : USEANetEncoder.forward
      ((encLoop a a.ratios.reverse 1).1 ++
        ((if a.lstm ≠ 0 then
            [Layer.slstm ((encLoop a a.ratios.reverse 1).2 * a.n_filters) a.lstm] else [])
          ++ [Layer.actLayer a.activation,
              Layer.sconv ((encLoop a a.ratios.reverse 1).2 * a.n_filters) a.dimension
                a.last_kernel_size 1]))
      ⟨b, 1 * a.n_filters, k * a.ratios.prod⟩ =
      .ok (⟨b, a.dimension, k⟩,
        encCaps a b a.ratios.reverse 1 (k * a.ratios.prod) ++ encFinalCap a b k) := by
    rw [enc_forward_append, hloop]
    dsimp only
    rw [htail]
  simp only [USEANetEncoder.forward, hhead]
  rw [hrest]
  simp [Layer.className]

theorem decLoop_eq (a : DecArgs) (rs : List Nat) (m : Nat)
    (hsct : a.skip_connection_type = "cat_linear" ∨ a.skip_connection_type = "scaled_sum") :
    decLoop a rs m = .ok (decLayersList a rs m, adaptersList a rs m) := by
  induction rs generalizing m with
  | nil => rfl
  | cons r rs ih =>
      rcases hsct with h | h <;>
        simp [decLoop, h, ih, decLayersList, adaptersList, stageAdapter]

theorem adaptersList_length (a : DecArgs) (rs : List Nat) (m : Nat) :
    (adaptersList a rs m).length = rs.length := by
  induction rs generalizing m with
  | nil => rfl
  | cons r rs ih => simp [adaptersList, ih]

theorem pyGet_cons (x : Adapter) (l : List Adapter) (j : Nat) :
    pyGet (x :: l) (j + 1) = pyGet l j := by
  by_cases h : j < l.length
  · have h2 : j + 1 < (x :: l).length := by simp; omega
    simp only [pyGet, h, h2, reduceDIte]
    rfl
  · have h2 : ¬(j + 1 < (x :: l).length) := by simp; omega
    simp [pyGet, h, h2]

theorem adaptersList_get (a : DecArgs) (rs : List Nat) (m j : Nat) (hj : j < rs.length) :
    pyGet (adaptersList a rs m) j = .ok (stageAdapter a (m / 2 ^ j)) := by
  induction rs generalizing m j with
  | nil => simp at hj
  | cons r rs ih =>
      cases j with
      | zero =>
          simp [adaptersList, pyGet]
      | succ j =>
          have hj' : j < rs.length := by simpa using hj
          have hdiv : m / 2 ^ (j + 1) = m / 2 / 2 ^ j := by
            rw [Nat.div_div_eq_div_mul, pow_succ, mul_comm 2 (2 ^ j)]
          rw [show adaptersList a (r :: rs) m =
            stageAdapter a m :: adaptersList a rs (m / 2) from rfl]
          rw [pyGet_cons, ih (m / 2) j hj', hdiv]

theorem pyGet_append_left (l1 l2 : List Adapter) (j : Nat) (h : j < l1.length) :
    pyGet (l1 ++ l2) j = pyGet l1 j := by
  have h2 : j < (l1 ++ l2).length := by simp; omega
  simp only [pyGet, h, h2, reduceDIte]
  congr 1
  rw [List.get_eq_getElem, List.get_eq_getElem, List.getElem_append_left]

theorem pyGet_last (l1 : List Adapter) (ad : Adapter) :
    pyGet (l1 ++ [ad]) l1.length = .ok ad := by
  have h2 : l1.length < (l1 ++ [ad]).length := by simp
  simp only [pyGet, h2, reduceDIte]
  congr 1
  rw [List.get_eq_getElem]
  have := List.getElem?_concat_length l1 ad
  rw [List.getElem?_eq_getElem h2] at this
  exact Option.some.inj this

theorem pyNegGet_concat_zero (l : List Shape) (x : Shape) :
    pyNegGet (l ++ [x]) 0 = .ok x := by
  have h2 : 0 < (l ++ [x]).length := by simp
  simp only [pyNegGet, h2, reduceDIte]
  congr 1
  rw [List.get_eq_getElem]
  have h3 : (l ++ [x]).length - 1 - 0 = l.length := by simp
  have := List.getElem?_concat_length l x
  rw [List.getElem?_eq_getElem (by simp : l.length < (l ++ [x]).length)] at this
  have h4 := Option.some.inj this
  simp only [h3]
  exact h4

theorem pyNegGet_concat_succ (l : List Shape) (x : Shape) (j : Nat) :
    pyNegGet (l ++ [x]) (j + 1) = pyNegGet l j := by
  by_cases h : j < l.length
  · have h2 : j + 1 < (l ++ [x]).length := by simp; omega
    simp only [pyNegGet, h, h2, reduceDIte]
    congr 1
    rw [List.get_eq_getElem, List.get_eq_getElem]
    have h3 : (l ++ [x]).length - 1 - (j + 1) = l.length - 1 - j := by simp; omega
    simp only [h3]
    exact List.getElem_append_left (by omega)
  · have h2 : ¬(j + 1 < (l ++ [x]).length) := by simp; omega
    simp [pyNegGet, h, h2]

theorem pyNegGet_of_get? (l : List Shape) (i : Nat) (s : Shape) (h : i < l.length)
    (hg : l.get? (l.length - 1 - i) = some s) : pyNegGet l i = .ok s := by
  simp only [pyNegGet, h, reduceDIte]
  congr 1
  rw [List.get?_eq_get (show l.length - 1 - i < l.length by omega)] at hg
  exact Option.some.inj hg

theorem prod_drop_reverse (l : List Nat) (j : Nat) :
    (l.reverse.drop (l.length - j)).prod = (l.take j).prod := by
  rw [← List.reverse_take]
  exact List.prod_reverse _

theorem encCaps_get_elu (a : EncArgs) (b : Nat) (rs : List Nat) (m k p : Nat)
    (helu : a.activation = "ELU") (hr : ∀ r ∈ rs, 0 < r) (hp : p < rs.length) :
    (encCaps a b rs m (k * rs.prod)).get? p =
      some ⟨b, 2 ^ p * m * a.n_filters, k * (rs.drop p).prod⟩ := by
  induction rs generalizing m k p with
  | nil => simp at hp
  | cons r rs ih =>
      have hr0 : 0 < r := hr r (by simp)
      have hdiv : k * (r :: rs).prod / r = k * rs.prod := by
        simp only [List.prod_cons]
        rw [show k * (r * rs.prod) = r * (k * rs.prod) by ring]
        exact Nat.mul_div_cancel_left _ hr0
      cases p with
      | zero =>
          simp [encCaps, helu]
      | succ p =>
          have hp' : p < rs.length := by simpa using hp
          have ih' := ih (m * 2) k p (fun r' h' => hr r' (by simp [h'])) hp'
          simp only [encCaps, helu, if_pos, List.singleton_append, List.get?_cons_succ]
          rw [hdiv, ih']
          have h1 : 2 ^ p * (m * 2) = 2 ^ (p + 1) * m := by rw [pow_succ]; ring
          simp [h1]

/-- The encoder's activation list, looked up by the decoder's negative
indexing `activations[-1-j]` for a fusion point `j ≤ number of stages`:
channel width `2 ^ (n - j) * n_filters` and time length
`k * (ratios.take j).prod`, i.e., exactly the tensor the decoder holds at its
`j`-th fusion point. -/
theorem acts_lookup (a : EncArgs) (b k j : Nat) (helu : a.activation = "ELU")
    (hr : ∀ r ∈ a.ratios, 0 < r) (hj : j ≤ a.ratios.length) :
    pyNegGet (encCaps a b a.ratios.reverse 1 (k * a.ratios.prod) ++ encFinalCap a b k) j =
      .ok ⟨b, 2 ^ (a.ratios.length - j) * a.n_filters, k * (a.ratios.take j).prod⟩ := by
  have hlen : (encCaps a b a.ratios.reverse 1 (k * a.ratios.prod)).length =
      a.ratios.length := by
    rw [encCaps_length_elu a b _ _ _ helu, List.length_reverse]
  rw [encFinalCap, if_pos helu]
  cases j with
  | zero =>
      rw [pyNegGet_concat_zero]
      simp
  | succ j =>
      rw [pyNegGet_concat_succ]
      have hj' : j < a.ratios.length := by omega
      apply pyNegGet_of_get?
      · rw [hlen]; omega
      · have hrr : ∀ r ∈ a.ratios.reverse, 0 < r := fun r h => hr r (List.mem_reverse.mp h)
        have hprod : a.ratios.reverse.prod = a.ratios.prod := List.prod_reverse a.ratios
        have hp : a.ratios.length - 1 - j < a.ratios.reverse.length := by simp; omega
        have hg := encCaps_get_elu a b a.ratios.reverse 1 k (a.ratios.length - 1 - j)
          helu hrr hp
        rw [hprod] at hg
        rw [hlen, hg]
        have h1 : 2 ^ (a.ratios.length - 1 - j) * 1 = 2 ^ (a.ratios.length - (j + 1)) := by
          rw [show a.ratios.length - 1 - j = a.ratios.length - (j + 1) by omega, mul_one]
        have h2 : (a.ratios.reverse.drop (a.ratios.length - 1 - j)).prod =
            (a.ratios.take (j + 1)).prod := by
          rw [show a.ratios.length - 1 - j = a.ratios.length - (j + 1) by omega]
          exact prod_drop_reverse a.ratios (j + 1)
        rw [h1, h2]

theorem dec_forward_append (sct : String) (adapters : List Adapter) (acts : List Shape)
    (l1 l2 : List Layer) (x : Shape) (i : Nat) :
    USEANetDecoder.forward sct adapters acts (l1 ++ l2) x i =
      match USEANetDecoder.forward sct adapters acts l1 x i with
      | (.error e, i1, t1) => (.error e, i1, t1)
      | (.ok y, i1, t1) =>
          ((USEANetDecoder.forward sct adapters acts l2 y i1).1,
           (USEANetDecoder.forward sct adapters acts l2 y i1).2.1,
           t1 ++ (USEANetDecoder.forward sct adapters acts l2 y i1).2.2) := by
  induction l1 generalizing x i with
  | nil =>
      simp [USEANetDecoder.forward]
  | cons l ls ih =>
      by_cases hc : l.className = "ELU"
      · cases h : applyLayer l x with
        | error e => simp [USEANetDecoder.forward, hc, h]
        | ok x1 =>
            cases hf : fuseStep sct adapters acts i x1 with
            | error e => simp [USEANetDecoder.forward, hc, h, hf]
            | ok p =>
                obtain ⟨x2, consumed⟩ := p
                simp only [List.cons_append, List.append_eq, USEANetDecoder.forward, hc,
                  if_pos, h, hf]
                rw [ih]
                cases h1 : USEANetDecoder.forward sct adapters acts ls x2 (i + 1) with
                | mk r1 q1 =>
                    obtain ⟨i1, t1⟩ := q1
                    cases r1 with
                    | error e => simp
                    | ok y => simp
      · cases h : applyLayer l x with
        | error e => simp [USEANetDecoder.forward, hc, h]
        | ok x1 =>
            simp only [List.cons_append, List.append_eq, USEANetDecoder.forward, hc,
              if_neg, ite_false, h]
            rw [ih]
            cases h1 : USEANetDecoder.forward sct adapters acts ls x1 i with
            | mk r1 q1 =>
                obtain ⟨i1, t1⟩ := q1
                cases r1 with
                | error e => simp
                | ok y => simp

theorem dec_forward_preserving (sct : String) (adapters : List Adapter) (acts : List Shape)
    (L rest : List Layer) (s : Shape) (i : Nat)
    (h : ∀ l ∈ L, applyLayer l s = .ok s ∧ l.className ≠ "ELU") :
    USEANetDecoder.forward sct adapters acts (L ++ rest) s i =
      ((USEANetDecoder.forward sct adapters acts rest s i).1,
       (USEANetDecoder.forward sct adapters acts rest s i).2.1,
       L.map Op.app ++ (USEANetDecoder.forward sct adapters acts rest s i).2.2) := by
  induction L with
  | nil => simp
  | cons l ls ih =>
      have h1 := h l (by simp)
      have ih' := ih fun l' hl' => h l' (by simp [hl'])
      simp only [List.cons_append, List.append_eq, USEANetDecoder.forward, h1.2,
        if_neg, ite_false, h1.1]
      rw [ih']
      simp

/-- Master lemma for the decoder's upsampling stages: starting at fusion
counter `i` on a tensor of shape `(b, 2^n · n_filters, k)` (with `n` the
number of remaining stages), provided the activation lookups and the adapter
lookups return matching entries, the stage layers execute to the tensor
`(b, n_filters, k · prod rs)` with counter `i + n`, emitting per stage the
operations: nonlinearity, skip fusion, transposed convolution, residual
blocks. -/
theorem decLoop_forward (a : DecArgs) (adapters : List Adapter) (acts : List Shape)
    (rest : List Layer) (rs : List Nat) (b k i : Nat)
    (helu : a.activation = "ELU")
    (hnfe : a.n_filters_encoder = a.n_filters)
    (hsct : a.skip_connection_type = "cat_linear" ∨ a.skip_connection_type = "scaled_sum")
    (hacts : ∀ j, j < rs.length →
        pyNegGet acts (i + j) =
          .ok ⟨b, 2 ^ (rs.length - j) * a.n_filters, k * (rs.take j).prod⟩)
    (hads : ∀ j, j < rs.length →
        pyGet adapters (i + j) = .ok (stageAdapter a (2 ^ (rs.length - j)))) :
    USEANetDecoder.forward a.skip_connection_type adapters acts
        (decLayersList a rs (2 ^ rs.length) ++ rest) ⟨b, 2 ^ rs.length * a.n_filters, k⟩ i =
      ((USEANetDecoder.forward a.skip_connection_type adapters acts rest
          ⟨b, a.n_filters, k * rs.prod⟩ (i + rs.length)).1,
       (USEANetDecoder.forward a.skip_connection_type adapters acts rest
          ⟨b, a.n_filters, k * rs.prod⟩ (i + rs.length)).2.1,
       decStagesOps a b rs (2 ^ rs.length) k i ++
         (USEANetDecoder.forward a.skip_connection_type adapters acts rest
            ⟨b, a.n_filters, k * rs.prod⟩ (i + rs.length)).2.2) := by
  induction rs generalizing k i with
  | nil =>
      simp [decLayersList, decStagesOps]
  | cons r rs ih =>
      have hM : (2 : Nat) ^ (rs.length + 1) / 2 = 2 ^ rs.length := by
        rw [pow_succ]
        exact Nat.mul_div_cancel _ (by norm_num)
      have hM2 : 2 ^ (rs.length + 1) * a.n_filters / 2 = 2 ^ rs.length * a.n_filters := by
        rw [pow_succ, show 2 ^ rs.length * 2 * a.n_filters =
          2 ^ rs.length * a.n_filters * 2 by ring]
        exact Nat.mul_div_cancel _ (by norm_num)
      have hacts0 := hacts 0 (by simp)
      rw [Nat.add_zero] at hacts0
      simp only [Nat.sub_zero, List.take_zero, List.prod_nil, Nat.mul_one,
        List.length_cons] at hacts0
      have hads0 := hads 0 (by simp)
      rw [Nat.add_zero] at hads0
      simp only [Nat.sub_zero, List.length_cons] at hads0
      have hfuse : fuseStep a.skip_connection_type adapters acts i
          ⟨b, 2 ^ (rs.length + 1) * a.n_filters, k⟩ =
          .ok (⟨b, 2 ^ (rs.length + 1) * a.n_filters, k⟩,
               some ⟨b, 2 ^ (rs.length + 1) * a.n_filters, k⟩) := by
        rcases hsct with h | h <;>
          simp [fuseStep, h, hacts0, hads0, stageAdapter, adapterOut, hnfe, two_mul, add_mul]
      have hconvT : applyLayer
          (Layer.sconvT (2 ^ (rs.length + 1) * a.n_filters)
            (2 ^ (rs.length + 1) * a.n_filters / 2) (r * 2) r)
          ⟨b, 2 ^ (rs.length + 1) * a.n_filters, k⟩ =
          .ok ⟨b, 2 ^ rs.length * a.n_filters, k * r⟩ := by
        simp [applyLayer, hM2]
      have hacts' : ∀ j, j < rs.length →
          pyNegGet acts ((i + 1) + j) =
            .ok ⟨b, 2 ^ (rs.length - j) * a.n_filters, (k * r) * (rs.take j).prod⟩ := by
        intro j hj
        have h := hacts (j + 1) (by simp; omega)
        rw [show i + (j + 1) = (i + 1) + j by omega] at h
        simpa [Nat.succ_sub_succ, ← mul_assoc] using h
      have hads' : ∀ j, j < rs.length →
          pyGet adapters ((i + 1) + j) = .ok (stageAdapter a (2 ^ (rs.length - j))) := by
        intro j hj
        have h := hads (j + 1) (by simp; omega)
        rw [show i + (j + 1) = (i + 1) + j by omega] at h
        simpa [Nat.succ_sub_succ] using h
      have hres : ∀ l ∈ ((List.range a.n_residual_layers).map fun j =>
            Layer.resblock (2 ^ (rs.length + 1) * a.n_filters / 2)
              [a.residual_kernel_size, 1] [a.dilation_base ^ j, 1]),
          applyLayer l ⟨b, 2 ^ rs.length * a.n_filters, k * r⟩ =
              .ok ⟨b, 2 ^ rs.length * a.n_filters, k * r⟩ ∧ l.className ≠ "ELU" := by
        intro l hl
        simp only [List.mem_map] at hl
        obtain ⟨j, _, rfl⟩ := hl
        refine ⟨?_, by simp [Layer.className]⟩
        simp [applyLayer, hM2]
      have hpres := dec_forward_preserving a.skip_connection_type adapters acts
        ((List.range a.n_residual_layers).map fun j =>
            Layer.resblock (2 ^ (rs.length + 1) * a.n_filters / 2)
              [a.residual_kernel_size, 1] [a.dilation_base ^ j, 1])
        (decLayersList a rs (2 ^ (rs.length + 1) / 2) ++ rest)
        ⟨b, 2 ^ rs.length * a.n_filters, k * r⟩ (i + 1) hres
      rw [hM] at hpres
      have ih' := ih (k * r) (i + 1) hacts' hads'
      have hact1 : applyLayer (Layer.actLayer "ELU")
          ⟨b, 2 ^ (rs.length + 1) * a.n_filters, k⟩ =
          .ok ⟨b, 2 ^ (rs.length + 1) * a.n_filters, k⟩ := rfl
      simp only [decLayersList, List.append_assoc, List.cons_append, List.nil_append,
        List.append_eq, List.length_cons, USEANetDecoder.forward, Layer.className, helu,
        String.reduceEq, reduceIte, hact1, hfuse, hconvT, hM]
      rw [hpres, ih']
      simp only [decStagesOps, hM, List.map_map, List.append_assoc, List.cons_append,
        List.length_cons]
      have harith1 : (i + 1) + rs.length = i + (rs.length + 1) := by omega
      have harith2 : k * r * rs.prod = k * (r :: rs).prod := by
        simp [List.prod_cons]; ring
      rw [harith1, harith2]
      simp [Function.comp]
      exact helu.symm

theorem decoder_mk_eq (a : DecArgs)
    (hact : a.activation ∈ nnActivationNames)
    (hsct : a.skip_connection_type = "cat_linear" ∨ a.skip_connection_type = "scaled_sum")
    (hfa : a.final_activation = none ∨
      ∃ s, a.final_activation = some s ∧ s ∈ nnActivationNames) :
    USEANetDecoder.mk a = .ok (decMainLayers a ++ decFinLayers a, decAdapters a) := by
  have hfin : finalAdapterOf a = .ok (finalAdapterVal a) := by
    rcases hsct with h | h <;> simp [finalAdapterOf, finalAdapterVal, h]
  have hloop := decLoop_eq a a.ratios (2 ^ a.ratios.length) hsct
  unfold USEANetDecoder.mk
  rw [if_pos hact]
  simp only [hloop, hfin]
  rcases hfa with h2 | ⟨s, h2, h3⟩
  · simp [h2, decMainLayers, decFinLayers, decAdapters]
  · simp [h2, h3, decMainLayers, decFinLayers, decAdapters]

/-- Master lemma for the decoder's forward pass over `decMainLayers`:
starting from the latent shape `(b, dimension, k)` with activation lookups
matching a paired encoder, it reaches the output shape
`(b, channels, k · prod ratios)` with fusion counter `(number of stages) + 1`,
executing `decMainOps`. -/
theorem decoder_main_forward (a : DecArgs) (acts : List Shape) (rest : List Layer)
    (b k : Nat)
    (helu : a.activation = "ELU")
    (hnfe : a.n_filters_encoder = a.n_filters)
    (hsct : a.skip_connection_type = "cat_linear" ∨ a.skip_connection_type = "scaled_sum")
    (hacts : ∀ j, j ≤ a.ratios.length →
        pyNegGet acts j =
          .ok ⟨b, 2 ^ (a.ratios.length - j) * a.n_filters, k * (a.ratios.take j).prod⟩) :
    USEANetDecoder.forward a.skip_connection_type (decAdapters a) acts
        (decMainLayers a ++ rest) ⟨b, a.dimension, k⟩ 0 =
      ((USEANetDecoder.forward a.skip_connection_type (decAdapters a) acts rest
          ⟨b, a.channels, k * a.ratios.prod⟩ (a.ratios.length + 1)).1,
       (USEANetDecoder.forward a.skip_connection_type (decAdapters a) acts rest
          ⟨b, a.channels, k * a.ratios.prod⟩ (a.ratios.length + 1)).2.1,
       decMainOps a b k ++
         (USEANetDecoder.forward a.skip_connection_type (decAdapters a) acts rest
            ⟨b, a.channels, k * a.ratios.prod⟩ (a.ratios.length + 1)).2.2) := by
  have hads : ∀ j, j < a.ratios.length →
      pyGet (decAdapters a) j = .ok (stageAdapter a (2 ^ (a.ratios.length - j))) := by
    intro j hj
    have h1 : j < (adaptersList a a.ratios (2 ^ a.ratios.length)).length := by
      rw [adaptersList_length]; omega
    rw [decAdapters, pyGet_append_left _ _ _ h1, adaptersList_get a a.ratios _ j hj,
      Nat.pow_div (by omega) (by norm_num)]
  have hactsN := hacts a.ratios.length le_rfl
  simp only [Nat.sub_self, pow_zero, one_mul, List.take_length] at hactsN
  have hadN : pyGet (decAdapters a) a.ratios.length = .ok (finalAdapterVal a) := by
    have h1 := pyGet_last (adaptersList a a.ratios (2 ^ a.ratios.length)) (finalAdapterVal a)
    rw [adaptersList_length] at h1
    simp only [decAdapters]
    exact h1
  have hfuseN : fuseStep a.skip_connection_type (decAdapters a) acts a.ratios.length
      ⟨b, a.n_filters, k * a.ratios.prod⟩ =
      .ok (⟨b, a.n_filters, k * a.ratios.prod⟩, some ⟨b, a.n_filters, k * a.ratios.prod⟩) := by
    rcases hsct with h | h <;>
      simp [fuseStep, h, hactsN, hadN, finalAdapterVal, adapterOut, hnfe, two_mul, add_mul]
  have htail : USEANetDecoder.forward a.skip_connection_type (decAdapters a) acts
      ([Layer.actLayer a.activation,
        Layer.sconv a.n_filters a.channels a.last_kernel_size 1] ++ rest)
      ⟨b, a.n_filters, k * a.ratios.prod⟩ a.ratios.length =
      ((USEANetDecoder.forward a.skip_connection_type (decAdapters a) acts rest
          ⟨b, a.channels, k * a.ratios.prod⟩ (a.ratios.length + 1)).1,
       (USEANetDecoder.forward a.skip_connection_type (decAdapters a) acts rest
          ⟨b, a.channels, k * a.ratios.prod⟩ (a.ratios.length + 1)).2.1,
       [Op.app (Layer.actLayer a.activation),
        Op.fuse a.ratios.length (some ⟨b, a.n_filters, k * a.ratios.prod⟩),
        Op.app (Layer.sconv a.n_filters a.channels a.last_kernel_size 1)] ++
         (USEANetDecoder.forward a.skip_connection_type (decAdapters a) acts rest
            ⟨b, a.channels, k * a.ratios.prod⟩ (a.ratios.length + 1)).2.2) := by
    have hlast : applyLayer
        (Layer.sconv a.n_filters a.channels a.last_kernel_size 1)
        ⟨b, a.n_filters, k * a.ratios.prod⟩ =
        .ok ⟨b, a.channels, k * a.ratios.prod⟩ := by
      simp [applyLayer]
    have hact1 : applyLayer (Layer.actLayer "ELU")
        ⟨b, a.n_filters, k * a.ratios.prod⟩ = .ok ⟨b, a.n_filters, k * a.ratios.prod⟩ := rfl
    simp only [List.cons_append, List.nil_append, USEANetDecoder.forward,
      Layer.className, helu, String.reduceEq, reduceIte, hact1, hfuseN, hlast]
    simp [helu]
  have hstages := decLoop_forward a (decAdapters a) acts
    ([Layer.actLayer a.activation,
      Layer.sconv a.n_filters a.channels a.last_kernel_size 1] ++ rest)
    a.ratios b k 0 helu hnfe hsct
    (fun j hj => by simpa using hacts j (by omega)) (fun j hj => by simpa using hads j hj)
  simp only [Nat.zero_add] at hstages
  rw [htail] at hstages
  simp only [List.cons_append, List.nil_append] at hstages
  have hhead : applyLayer
      (Layer.sconv a.dimension (2 ^ a.ratios.length * a.n_filters) a.kernel_size 1)
      ⟨b, a.dimension, k⟩ = .ok ⟨b, 2 ^ a.ratios.length * a.n_filters, k⟩ := by
    simp [applyLayer]
  by_cases hl : a.lstm = 0
  · simp only [decMainLayers, decMainOps, hl, ite_false, if_neg, ne_eq,
      not_true_eq_false, List.nil_append, List.cons_append, List.append_assoc,
      List.append_eq, USEANetDecoder.forward, Layer.className, String.reduceEq,
      reduceIte, hhead]
    rw [hstages]
  · have hlstm : applyLayer
        (Layer.slstm (2 ^ a.ratios.length * a.n_filters) a.lstm)
        ⟨b, 2 ^ a.ratios.length * a.n_filters, k⟩ =
        .ok ⟨b, 2 ^ a.ratios.length * a.n_filters, k⟩ := by
      simp [applyLayer]
    simp only [decMainLayers, decMainOps, hl, ite_true, if_pos, ne_eq,
      not_false_eq_true, List.nil_append, List.cons_append, List.append_assoc,
      List.append_eq, USEANetDecoder.forward, Layer.className, String.reduceEq,
      reduceIte, hhead, hlstm]
    rw [hstages]

theorem encLoop_eq_spec (a : EncArgs) (rs : List Nat) (i : Nat) :
    (encLoop a rs (2 ^ i)).1 = specEncStages a i rs := by
  induction rs generalizing i with
  | nil => rfl
  | cons r rs ih =>
      have h2 : (2 : Nat) ^ i * 2 = 2 ^ (i + 1) := (pow_succ 2 i).symm
      have h3 : 2 ^ i * a.n_filters * 2 = 2 * (2 ^ i * a.n_filters) := by ring
      simp only [encLoop, specEncStages, h2, h3, ih (i + 1), List.append_assoc,
        List.cons_append, List.nil_append]

theorem fusesOf_append (t1 t2 : List Op) :
    fusesOf (t1 ++ t2) = fusesOf t1 ++ fusesOf t2 := by
  induction t1 with
  | nil => rfl
  | cons op t1 ih => cases op <;> simp [fusesOf, ih]

theorem fusesOf_map_app (L : List Layer) : fusesOf (L.map Op.app) = [] := by
  induction L with
  | nil => rfl
  | cons l L ih => simp [fusesOf, ih]

theorem fusesOf_map_app_range (f : Nat → Layer) (l : List Nat) :
    fusesOf (l.map fun j => Op.app (f j)) = [] := by
  induction l with
  | nil => rfl
  | cons x l ih => simp [fusesOf, ih]

theorem fusesOf_decStagesOps_fst (a : DecArgs) (b : Nat) (rs : List Nat) (m k i : Nat) :
    (fusesOf (decStagesOps a b rs m k i)).map Prod.fst = List.range' i rs.length := by
  induction rs generalizing m k i with
  | nil => rfl
  | cons r rs ih =>
      simp [decStagesOps, fusesOf, fusesOf_append, fusesOf_map_app,
        fusesOf_map_app_range, ih, List.range']

theorem fusesOf_decMainOps_fst (a : DecArgs) (b k : Nat) :
    (fusesOf (decMainOps a b k)).map Prod.fst = List.range (a.ratios.length + 1) := by
  have h1 : fusesOf (decMainOps a b k) =
      fusesOf (decStagesOps a b a.ratios (2 ^ a.ratios.length) k 0) ++
        [(a.ratios.length, some ⟨b, a.n_filters, k * a.ratios.prod⟩)] := by
    by_cases hl : a.lstm = 0 <;>
      simp [decMainOps, hl, fusesOf, fusesOf_append, fusesOf_map_app, fusesOf_map_app_range]
  rw [h1, List.map_append, fusesOf_decStagesOps_fst]
  rw [List.range_eq_range']
  rw [List.range'_concat]
  simp

theorem fuseStep_consumed (sct : String) (adapters : List Adapter) (acts : List Shape)
    (i : Nat) (x y : Shape) (c : Option Shape)
    (hsct : sct = "cat_linear" ∨ sct = "scaled_sum")
    (h : fuseStep sct adapters acts i x = .ok (y, c)) :
    ∃ s, c = some s ∧ pyNegGet acts i = .ok s := by
  rcases hsct with hs | hs <;> rw [hs] at h <;>
    simp only [fuseStep, String.reduceEq, reduceIte] at h
  · cases hg : pyNegGet acts i with
    | error e => simp [hg] at h
    | ok s =>
        simp only [hg] at h
        refine ⟨s, ?_, rfl⟩
        by_cases hbt : x.batch = s.batch ∧ x.time = s.time
        · simp only [hbt, and_self, reduceIte] at h
          cases hga : pyGet adapters i with
          | error e => simp [hga] at h
          | ok ad =>
              simp only [hga] at h
              cases hao : adapterOut ad (x.channels + s.channels) with
              | error e => simp [hao] at h
              | ok cout =>
                  simp only [hao, Except.ok.injEq, Prod.mk.injEq] at h
                  exact h.2.symm
        · rw [if_neg hbt] at h
          simp at h
  · cases hg : pyNegGet acts i with
    | error e => simp [hg] at h
    | ok s =>
        simp only [hg] at h
        refine ⟨s, ?_, rfl⟩
        cases hga : pyGet adapters i with
        | error e => simp [hga] at h
        | ok ad =>
            simp only [hga] at h
            cases hao : adapterOut ad s.channels with
            | error e => simp [hao] at h
            | ok cout =>
                simp only [hao] at h
                by_cases hbt : x.batch = s.batch ∧ x.time = s.time ∧ x.channels = cout
                · simp only [hbt, and_self, reduceIte, Except.ok.injEq,
                    Prod.mk.injEq] at h
                  exact h.2.symm
                · rw [if_neg hbt] at h
                  simp at h

/-- Every fusion recorded in a decoder forward trace consumed exactly the
activation `activations[-1-p]` at its fusion point `p`. -/
theorem forward_fuse_consumed (sct : String) (adapters : List Adapter) (acts : List Shape)
    (L : List Layer) (x : Shape) (i : Nat)
    (hsct : sct = "cat_linear" ∨ sct = "scaled_sum") :
    ∀ p c, Op.fuse p c ∈ (USEANetDecoder.forward sct adapters acts L x i).2.2 →
      ∃ s, c = some s ∧ pyNegGet acts p = .ok s := by
  induction L generalizing x i with
  | nil => intro p c h; simp [USEANetDecoder.forward] at h
  | cons l ls ih =>
      intro p c h
      by_cases hc : l.className = "ELU"
      · cases ha : applyLayer l x with
        | error e => rw [USEANetDecoder.forward] at h; simp [hc, ha] at h
        | ok x1 =>
            cases hf : fuseStep sct adapters acts i x1 with
            | error e =>
                rw [USEANetDecoder.forward] at h
                simp [hc, ha, hf, fusesOf] at h
            | ok pr =>
                obtain ⟨x2, consumed⟩ := pr
                rw [USEANetDecoder.forward] at h
                simp only [hc, reduceIte, ha, hf, List.mem_cons] at h
                rcases h with h | h | h
                · simp at h
                · obtain ⟨hp, hcc⟩ := Op.fuse.inj h
                  rw [hp, hcc]
                  exact fuseStep_consumed sct adapters acts i x1 x2 consumed hsct hf
                · exact ih x2 (i + 1) p c h
      · cases ha : applyLayer l x with
        | error e => rw [USEANetDecoder.forward] at h; simp [hc, ha] at h
        | ok x1 =>
            rw [USEANetDecoder.forward] at h
            simp only [hc, reduceIte, ite_false, ha, List.mem_cons] at h
            rcases h with h | h
            · simp at h
            · exact ih x1 i p c h

/-- With an empty activation list, a decoder forward pass never completes a
fusion and never advances the fusion counter: every fusion attempt fails on
`activations[-1-i]` before the counter increment. -/
theorem forward_empty_acts (sct : String) (adapters : List Adapter) (L : List Layer)
    (x : Shape) (i : Nat)
    (hsct : sct = "cat_linear" ∨ sct = "scaled_sum") :
    (USEANetDecoder.forward sct adapters [] L x i).2.1 = i ∧
    ∀ op ∈ (USEANetDecoder.forward sct adapters [] L x i).2.2, ∀ p c, op ≠ Op.fuse p c := by
  induction L generalizing x i with
  | nil => simp [USEANetDecoder.forward]
  | cons l ls ih =>
      have hfuse : ∀ x1, fuseStep sct adapters [] i x1 = .error "IndexError" := by
        intro x1
        rcases hsct with hs | hs <;> simp [fuseStep, hs, pyNegGet]
      by_cases hc : l.className = "ELU"
      · cases ha : applyLayer l x with
        | error e => simp [USEANetDecoder.forward, hc, ha]
        | ok x1 => simp [USEANetDecoder.forward, hc, ha, hfuse x1]
      · cases ha : applyLayer l x with
        | error e => simp [USEANetDecoder.forward, hc, ha]
        | ok x1 =>
            have := ih x1 i
            simp only [USEANetDecoder.forward, hc, reduceIte, ite_false, ha]
            refine ⟨this.1, ?_⟩
            intro op hop p c
            rcases List.mem_cons.mp hop with h | h
            · subst h; simp
            · exact this.2 op h p c

theorem decLoop_invalid (a : DecArgs) (r : Nat) (rs : List Nat) (m : Nat)
    (h1 : a.skip_connection_type ≠ "cat_linear")
    (h2 : a.skip_connection_type ≠ "scaled_sum") :
    decLoop a (r :: rs) m = .error "Unrecognized skip_connection_type" := by
  simp [decLoop, h1, h2]

theorem adaptersList_scaled (a : DecArgs) (rs : List Nat) (m : Nat)
    (h : a.skip_connection_type = "scaled_sum") :
    ∀ ad ∈ adaptersList a rs m, ∃ cin cout, ad = Adapter.scaledSum cin cout 0 := by
  induction rs generalizing m with
  | nil => simp [adaptersList]
  | cons r rs ih =>
      intro ad had
      rcases List.mem_cons.mp had with h1 | h1
      · subst h1
        refine ⟨m * a.n_filters_encoder, m * a.n_filters, ?_⟩
        simp [stageAdapter, h]
      · exact ih (m / 2) ad h1

theorem countELU_decLayersList (a : DecArgs) (rs : List Nat) (m : Nat)
    (helu : a.activation = "ELU") :
    (decLayersList a rs m).countP (fun l => l.className == "ELU") = rs.length := by
  induction rs generalizing m with
  | nil => rfl
  | cons r rs ih =>
      have hres : ((List.range a.n_residual_layers).map fun j =>
          Layer.resblock (m * a.n_filters / 2) [a.residual_kernel_size, 1]
            [a.dilation_base ^ j, 1]).countP (fun l => l.className == "ELU") = 0 := by
        rw [List.countP_eq_zero]
        intro l hl
        simp only [List.mem_map] at hl
        obtain ⟨j, _, rfl⟩ := hl
        simp [Layer.className]
      simp only [decLayersList, List.countP_append, hres, ih]
      simp [List.countP_cons, Layer.className, helu]
      omega

/-- Composition helper: a matched encoder/decoder pair (same ratio list,
same base filter count, `n_filters_encoder` equal to the encoder's
`n_filters`, matching latent dimension, both with activation `ELU`, a
supported skip-connection type and a resolvable optional final activation)
ran on an input of time length `k * prod ratios`. -/
theorem paired_run (ae : EncArgs) (ad : DecArgs) (b k : Nat)
    (he : ae.activation = "ELU") (hd : ad.activation = "ELU")
    (hr : ∀ r ∈ ae.ratios, 0 < r)
    (hratios : ad.ratios = ae.ratios) (hnf : ad.n_filters = ae.n_filters)
    (hnfe : ad.n_filters_encoder = ae.n_filters) (hdim : ad.dimension = ae.dimension)
    (hsct : ad.skip_connection_type = "cat_linear" ∨ ad.skip_connection_type = "scaled_sum")
    (hfa : ad.final_activation = none ∨
      ∃ s, ad.final_activation = some s ∧ s ∈ nnActivationNames) :
    ∃ lat acts,
      USEANet.encode ae ⟨b, ae.channels, k * ae.ratios.prod⟩ = .ok (lat, acts) ∧
      acts.length = ad.ratios.length + 1 ∧
      USEANetDecoder.mk ad = .ok (decMainLayers ad ++ decFinLayers ad, decAdapters ad) ∧
      (∀ j, j ≤ ad.ratios.length →
        pyNegGet acts j =
          .ok ⟨b, 2 ^ (ad.ratios.length - j) * ad.n_filters, k * (ad.ratios.take j).prod⟩) ∧
      USEANet.decode ad (lat, acts) =
        ((USEANetDecoder.forward ad.skip_connection_type (decAdapters ad) acts
            (decFinLayers ad) ⟨b, ad.channels, k * ad.ratios.prod⟩ (ad.ratios.length + 1)).1,
         (USEANetDecoder.forward ad.skip_connection_type (decAdapters ad) acts
            (decFinLayers ad) ⟨b, ad.channels, k * ad.ratios.prod⟩ (ad.ratios.length + 1)).2.1,
         decMainOps ad b k ++
           (USEANetDecoder.forward ad.skip_connection_type (decAdapters ad) acts
              (decFinLayers ad) ⟨b, ad.channels, k * ad.ratios.prod⟩
              (ad.ratios.length + 1)).2.2) := by
  have hacte : ae.activation ∈ nnActivationNames := by rw [he]; simp [nnActivationNames]
  have hactd : ad.activation ∈ nnActivationNames := by rw [hd]; simp [nnActivationNames]
  obtain ⟨L, hmk, hfwd⟩ := encoder_run ae b k hr hacte
  have hmkd := decoder_mk_eq ad hactd hsct hfa
  have hacts : ∀ j, j ≤ ad.ratios.length →
      pyNegGet (encCaps ae b ae.ratios.reverse 1 (k * ae.ratios.prod) ++ encFinalCap ae b k)
          j =
        .ok ⟨b, 2 ^ (ad.ratios.length - j) * ad.n_filters,
             k * (ad.ratios.take j).prod⟩ := by
    intro j hj
    rw [hratios] at hj ⊢
    rw [hnf]
    exact acts_lookup ae b k j he hr hj
  have hnfe' : ad.n_filters_encoder = ad.n_filters := by rw [hnfe, hnf]
  have hmain := decoder_main_forward ad
    (encCaps ae b ae.ratios.reverse 1 (k * ae.ratios.prod) ++ encFinalCap ae b k)
    (decFinLayers ad) b k hd hnfe' hsct hacts
  have hlen : (encCaps ae b ae.ratios.reverse 1 (k * ae.ratios.prod) ++
      encFinalCap ae b k).length = ad.ratios.length + 1 := by
    rw [List.length_append, encCaps_length_elu ae b _ _ _ he, List.length_reverse,
      encFinalCap, if_pos he, hratios]
    rfl
  refine ⟨⟨b, ae.dimension, k⟩, _, ?_, hlen, hmkd, hacts, ?_⟩
  · simp only [USEANet.encode, hmk, hfwd]
  · simp only [USEANet.decode, hmkd]
    rw [show (⟨b, ae.dimension, k⟩ : Shape) = ⟨b, ad.dimension, k⟩ by rw [hdim]]
    rw [hratios]
    rw [hratios] at hmain
    exact hmain

/-- C1 (counterexample): `aeR` is a configuration with one downsampling
stage whose activation is `ReLU`; its forward pass on a valid input succeeds
and returns an empty activation list, not the claimed `stages + 1` ordered
activations. -/
theorem encoder_relu_capture_count_cex :
    USEANet.encode aeR ⟨1, 1, 2⟩ = .ok (⟨1, 2, 1⟩, []) ∧
    ([] : List Shape).length ≠ aeR.ratios.length + 1 := by decide

/-- C1 (amended): for every configuration whose activation class is `ELU`
(the class name the capture test in `USEANetEncoder.forward` compares
against) with `n` downsampling stages and positive ratios, the forward pass
on an input whose time length is a multiple of the ratio product returns,
alongside the latent tensor, an ordered list of exactly `n + 1` activation
tensors. -/
theorem encoder_capture_count (a : EncArgs) (b k : Nat)
    (hr : ∀ r ∈ a.ratios, 0 < r) (helu : a.activation = "ELU") :
    ∃ lat acts,
      USEANet.encode a ⟨b, a.channels, k * a.ratios.prod⟩ = .ok (lat, acts) ∧
      acts.length = a.ratios.length + 1 := by
  have hact : a.activation ∈ nnActivationNames := by rw [helu]; simp [nnActivationNames]
  obtain ⟨L, hmk, hfwd⟩ := encoder_run a b k hr hact
  refine ⟨⟨b, a.dimension, k⟩,
    encCaps a b a.ratios.reverse 1 (k * a.ratios.prod) ++ encFinalCap a b k, ?_, ?_⟩
  · simp only [USEANet.encode, hmk, hfwd]
  · rw [List.length_append, encCaps_length_elu a b _ _ _ helu, List.length_reverse,
      encFinalCap, if_pos helu]
    rfl

theorem encoder_capture_count_witness :
    (∀ r ∈ aeW.ratios, 0 < r) ∧ aeW.activation = "ELU" ∧
    (∃ lat acts,
      USEANet.encode aeW ⟨1, aeW.channels, 1 * aeW.ratios.prod⟩ = .ok (lat, acts) ∧
      acts.length = aeW.ratios.length + 1) :=
  ⟨by decide, rfl, encoder_capture_count aeW 1 1 (by decide) rfl⟩

/-- C4: under a resolvable activation name (and a resolvable optional final
activation), `USEANetDecoder.__init__` succeeds for the two supported values
of `skip_connection_type`, and raises the skip-type exception during
construction for every other value. -/
theorem decoder_skip_type_validation (a : DecArgs)
    (hact : a.activation ∈ nnActivationNames)
    (hfa : a.final_activation = none ∨
      ∃ s, a.final_activation = some s ∧ s ∈ nnActivationNames) :
    ((a.skip_connection_type = "cat_linear" ∨ a.skip_connection_type = "scaled_sum") →
      ∃ p, USEANetDecoder.mk a = .ok p) ∧
    ((a.skip_connection_type ≠ "cat_linear" ∧ a.skip_connection_type ≠ "scaled_sum") →
      USEANetDecoder.mk a = .error "Unrecognized skip_connection_type") := by
  constructor
  · intro hsct
    exact ⟨_, decoder_mk_eq a hact hsct hfa⟩
  · rintro ⟨h1, h2⟩
    unfold USEANetDecoder.mk
    rw [if_pos hact]
    cases hrat : a.ratios with
    | nil => simp [decLoop, finalAdapterOf, h1, h2]
    | cons r rs => simp [decLoop_invalid a r rs _ h1 h2]

theorem decoder_skip_type_validation_witness :
    adW.activation ∈ nnActivationNames ∧
    (adW.final_activation = none ∨
      ∃ s, adW.final_activation = some s ∧ s ∈ nnActivationNames) ∧
    (((adW.skip_connection_type = "cat_linear" ∨ adW.skip_connection_type = "scaled_sum") →
      ∃ p, USEANetDecoder.mk adW = .ok p) ∧
    ((adW.skip_connection_type ≠ "cat_linear" ∧ adW.skip_connection_type ≠ "scaled_sum") →
      USEANetDecoder.mk adW = .error "Unrecognized skip_connection_type")) :=
  ⟨by decide, Or.inl rfl, decoder_skip_type_validation adW (by decide) (Or.inl rfl)⟩

/-- C5: for every configuration with `n` upsampling stages and a supported
`skip_connection_type` (and resolvable activation names),
`USEANetDecoder.__init__` constructs exactly `n + 1` adaptation layers. -/
theorem decoder_adapter_count (a : DecArgs)
    (hact : a.activation ∈ nnActivationNames)
    (hsct : a.skip_connection_type = "cat_linear" ∨ a.skip_connection_type = "scaled_sum")
    (hfa : a.final_activation = none ∨
      ∃ s, a.final_activation = some s ∧ s ∈ nnActivationNames) :
    ∃ L A, USEANetDecoder.mk a = .ok (L, A) ∧ A.length = a.ratios.length + 1 := by
  refine ⟨_, _, decoder_mk_eq a hact hsct hfa, ?_⟩
  simp [decAdapters, adaptersList_length]

theorem decoder_adapter_count_witness :
    adW.activation ∈ nnActivationNames ∧
    (adW.skip_connection_type = "cat_linear" ∨ adW.skip_connection_type = "scaled_sum") ∧
    (adW.final_activation = none ∨
      ∃ s, adW.final_activation = some s ∧ s ∈ nnActivationNames) ∧
    (∃ L A, USEANetDecoder.mk adW = .ok (L, A) ∧ A.length = adW.ratios.length + 1) :=
  ⟨by decide, Or.inl rfl, Or.inl rfl,
    decoder_adapter_count adW (by decide) (Or.inl rfl) (Or.inl rfl)⟩

/-- C7: under the `scaled_sum` strategy every adaptation layer constructed by
`USEANetDecoder.__init__` is a linear projection followed by a `ScaleLayer`
whose scale parameter is initialized to zero, and the scaled-sum fusion step
with scale zero returns the decoder activation tensor unchanged (for any
linear weights and any tensors). -/
theorem scaled_sum_fresh_identity (a : DecArgs)
    (hact : a.activation ∈ nnActivationNames)
    (hsct : a.skip_connection_type = "scaled_sum")
    (hfa : a.final_activation = none ∨
      ∃ s, a.final_activation = some s ∧ s ∈ nnActivationNames) :
    (∃ L A, USEANetDecoder.mk a = .ok (L, A) ∧
      ∀ ad ∈ A, ∃ cin cout, ad = Adapter.scaledSum cin cout 0) ∧
    (∀ cin W bias x xskip, scaledSumFuse cin W bias 0 x xskip = x) := by
  constructor
  · refine ⟨_, _, decoder_mk_eq a hact (Or.inr hsct) hfa, ?_⟩
    intro ad had
    simp only [decAdapters] at had
    rcases List.mem_append.mp had with h1 | h1
    · exact adaptersList_scaled a a.ratios _ hsct ad h1
    · have h2 := List.mem_singleton.mp h1
      subst h2
      exact ⟨a.n_filters_encoder, a.n_filters, by simp [finalAdapterVal, hsct]⟩
  · intro cin W bias x xskip
    funext bi c t
    simp [scaledSumFuse, transpose12, scaleLayerApply]

theorem scaled_sum_fresh_identity_witness :
    adWs.activation ∈ nnActivationNames ∧
    adWs.skip_connection_type = "scaled_sum" ∧
    (adWs.final_activation = none ∨
      ∃ s, adWs.final_activation = some s ∧ s ∈ nnActivationNames) ∧
    ((∃ L A, USEANetDecoder.mk adWs = .ok (L, A) ∧
      ∀ ad ∈ A, ∃ cin cout, ad = Adapter.scaledSum cin cout 0) ∧
    (∀ cin W bias x xskip, scaledSumFuse cin W bias 0 x xskip = x)) :=
  ⟨by decide, rfl, Or.inl rfl,
    scaled_sum_fresh_identity adWs (by decide) rfl (Or.inl rfl)⟩

/-- C8: for every configuration with a resolvable activation name, the layer
stack built by `USEANetEncoder.__init__` is exactly the stack the spec
describes (`specEncoderModel`): ratios processed in reverse order, each stage
at width `2 ^ stage * n_filters` applying `n_residual_layers` residual blocks
with dilation `dilation_base ^ j`, then the nonlinearity, then a strided
convolution of kernel size twice the ratio and stride the ratio that doubles
the channel width. -/
theorem encoder_structure_refines_spec (a : EncArgs)
    (hact : a.activation ∈ nnActivationNames) :
    USEANetEncoder.mk a = .ok (specEncoderModel a) := by
  have h1 : (encLoop a a.ratios.reverse 1).1 = specEncStages a 0 a.ratios.reverse := by
    have h := encLoop_eq_spec a a.ratios.reverse 0
    rwa [pow_zero] at h
  have h2 : (encLoop a a.ratios.reverse 1).2 = 2 ^ a.ratios.length := by
    rw [encLoop_snd, List.length_reverse, mul_one]
  unfold USEANetEncoder.mk
  rw [if_pos hact]
  simp [specEncoderModel, h1, h2]

theorem encoder_structure_refines_spec_witness :
    aeW.activation ∈ nnActivationNames ∧
    USEANetEncoder.mk aeW = .ok (specEncoderModel aeW) :=
  ⟨by decide, encoder_structure_refines_spec aeW (by decide)⟩

/-- C2 (counterexample): on the matched one-stage configuration `aeW`/`adW`
the executed operation order puts the skip fusion immediately after each
nonlinearity and before the transposed convolution (and the final fusion
before the final convolution), refuting the claimed order
nonlinearity → transposed convolution → fusion → residual blocks (with final
fusion after the final convolution). -/
theorem decoder_fusion_before_transposed_conv_cex :
    (USEANet.decode adW (⟨1, 2, 1⟩, [⟨1, 1, 2⟩, ⟨1, 2, 1⟩])).2.2 =
      [Op.app (Layer.sconv 2 2 3 1),
       Op.app (Layer.slstm 2 1),
       Op.app (Layer.actLayer "ELU"),
       Op.fuse 0 (some ⟨1, 2, 1⟩),
       Op.app (Layer.sconvT 2 1 4 2),
       Op.app (Layer.resblock 1 [3, 1] [1, 1]),
       Op.app (Layer.actLayer "ELU"),
       Op.fuse 1 (some ⟨1, 1, 2⟩),
       Op.app (Layer.sconv 1 1 3 1)] ∧
    ([Op.app (Layer.sconv 2 2 3 1),
      Op.app (Layer.slstm 2 1),
      Op.app (Layer.actLayer "ELU"),
      Op.fuse 0 (some ⟨1, 2, 1⟩),
      Op.app (Layer.sconvT 2 1 4 2),
      Op.app (Layer.resblock 1 [3, 1] [1, 1]),
      Op.app (Layer.actLayer "ELU"),
      Op.fuse 1 (some ⟨1, 1, 2⟩),
      Op.app (Layer.sconv 1 1 3 1)] : List Op) ≠
      [Op.app (Layer.sconv 2 2 3 1),
       Op.app (Layer.slstm 2 1),
       Op.app (Layer.actLayer "ELU"),
       Op.app (Layer.sconvT 2 1 4 2),
       Op.fuse 0 (some ⟨1, 2, 1⟩),
       Op.app (Layer.resblock 1 [3, 1] [1, 1]),
       Op.app (Layer.actLayer "ELU"),
       Op.app (Layer.sconv 1 1 3 1),
       Op.fuse 1 (some ⟨1, 1, 2⟩)] := by decide

/-- C2 (amended): in `USEANetDecoder.forward` each upsampling stage executes
in the order: nonlinearity, then skip fusion with the corresponding captured
encoder activation, then the transposed convolution (upsampling time by the
stride and halving the channel width), then the configured residual blocks —
see `decStagesOps`, whose defining equation lists exactly these operations
per stage; after the stages: final nonlinearity, final fusion, final
convolution (`decMainOps`). -/
theorem decoder_stage_operation_order (ae : EncArgs) (ad : DecArgs) (b k : Nat)
    (he : ae.activation = "ELU") (hd : ad.activation = "ELU")
    (hr : ∀ r ∈ ae.ratios, 0 < r)
    (hratios : ad.ratios = ae.ratios) (hnf : ad.n_filters = ae.n_filters)
    (hnfe : ad.n_filters_encoder = ae.n_filters) (hdim : ad.dimension = ae.dimension)
    (hsct : ad.skip_connection_type = "cat_linear" ∨ ad.skip_connection_type = "scaled_sum")
    (hfa : ad.final_activation = none) :
    ∃ lat acts,
      USEANet.encode ae ⟨b, ae.channels, k * ae.ratios.prod⟩ = .ok (lat, acts) ∧
      (USEANet.decode ad (lat, acts)).2.2 = decMainOps ad b k := by
  obtain ⟨lat, acts, henc, hlen, hmk, hactsl, hdec⟩ :=
    paired_run ae ad b k he hd hr hratios hnf hnfe hdim hsct (Or.inl hfa)
  refine ⟨lat, acts, henc, ?_⟩
  rw [hdec]
  simp [decFinLayers, hfa, USEANetDecoder.forward]

theorem decoder_stage_operation_order_witness :
    aeW.activation = "ELU" ∧ adW.activation = "ELU" ∧ (∀ r ∈ aeW.ratios, 0 < r) ∧
    adW.ratios = aeW.ratios ∧ adW.n_filters = aeW.n_filters ∧
    adW.n_filters_encoder = aeW.n_filters ∧ adW.dimension = aeW.dimension ∧
    (adW.skip_connection_type = "cat_linear" ∨ adW.skip_connection_type = "scaled_sum") ∧
    adW.final_activation = none ∧
    (∃ lat acts,
      USEANet.encode aeW ⟨1, aeW.channels, 1 * aeW.ratios.prod⟩ = .ok (lat, acts) ∧
      (USEANet.decode adW (lat, acts)).2.2 = decMainOps adW 1 1) :=
  ⟨rfl, rfl, by decide, rfl, rfl, rfl, rfl, Or.inl rfl, rfl,
    decoder_stage_operation_order aeW adW 1 1 rfl rfl (by decide) rfl rfl rfl rfl
      (Or.inl rfl) rfl⟩

/-- C3 (counterexample): `adR` uses the nonlinearity class `ReLU`; its stack
contains two nonlinearity-class layers, yet a successful forward pass leaves
the fusion counter at 0, so the counter does not advance once per
nonlinearity encountered in the decoder stack. -/
theorem decoder_counter_not_per_nonlinearity_cex :
    (match USEANetDecoder.mk adR with
     | .ok (L, _) => L.countP (fun l => nnActivationNames.contains l.className)
     | .error _ => 0) = 2 ∧
    (USEANet.decode adR (⟨1, 2, 1⟩, [])).1 = .ok ⟨1, 1, 2⟩ ∧
    (USEANet.decode adR (⟨1, 2, 1⟩, [])).2.1 = 0 ∧
    (0 : Nat) ≠ 2 := by decide

theorem mem_of_mem_fusesOf (t : List Op) (p : Nat) (c : Option Shape)
    (h : (p, c) ∈ fusesOf t) : Op.fuse p c ∈ t := by
  induction t with
  | nil => simp [fusesOf] at h
  | cons op t ih =>
      cases op with
      | app l =>
          simp only [fusesOf] at h
          exact List.mem_cons_of_mem _ (ih h)
      | fuse i cc =>
          simp only [fusesOf, List.mem_cons, Prod.mk.injEq] at h
          rcases h with ⟨h1, h2⟩ | h
          · rw [h1, h2]
            exact List.mem_cons_self _ _
          · exact List.mem_cons_of_mem _ (ih h)

/-- C3 (amended): the fusion-point counter advances exactly once per
ELU-class layer (the layers the forward loop treats as fusion points): on a
matched run it ends equal to the number of ELU-class layers in the stack;
the fusion points occur in order `0, 1, …, n`; and the activation consumed at
fusion point `p` is exactly `activations[-1-p]` (position `length - 1 - p`),
so fusion consumes the `n + 1` captured activations in exact reverse order of
capture, the final fusion consuming the first capture. -/
theorem decoder_fusion_reverse_order (ae : EncArgs) (ad : DecArgs) (b k : Nat)
    (he : ae.activation = "ELU") (hd : ad.activation = "ELU")
    (hr : ∀ r ∈ ae.ratios, 0 < r)
    (hratios : ad.ratios = ae.ratios) (hnf : ad.n_filters = ae.n_filters)
    (hnfe : ad.n_filters_encoder = ae.n_filters) (hdim : ad.dimension = ae.dimension)
    (hsct : ad.skip_connection_type = "cat_linear" ∨ ad.skip_connection_type = "scaled_sum")
    (hfa : ad.final_activation = none ∨
      ∃ s, ad.final_activation = some s ∧ s ∈ nnActivationNames ∧ s ≠ "ELU") :
    ∃ lat acts L A,
      USEANet.encode ae ⟨b, ae.channels, k * ae.ratios.prod⟩ = .ok (lat, acts) ∧
      acts.length = ad.ratios.length + 1 ∧
      USEANetDecoder.mk ad = .ok (L, A) ∧
      (USEANet.decode ad (lat, acts)).2.1 = L.countP (fun l => l.className == "ELU") ∧
      (fusesOf (USEANet.decode ad (lat, acts)).2.2).map Prod.fst =
        List.range (ad.ratios.length + 1) ∧
      (∀ p c, (p, c) ∈ fusesOf (USEANet.decode ad (lat, acts)).2.2 →
        ∃ s, c = some s ∧ pyNegGet acts p = .ok s) := by
  have hfa2 : ad.final_activation = none ∨
      ∃ s, ad.final_activation = some s ∧ s ∈ nnActivationNames := by
    rcases hfa with h | ⟨s2, h1, h2, _⟩
    · exact Or.inl h
    · exact Or.inr ⟨s2, h1, h2⟩
  obtain ⟨lat, acts, henc, hlen, hmk, hactsl, hdec⟩ :=
    paired_run ae ad b k he hd hr hratios hnf hnfe hdim hsct hfa2
  have hfinrun : (USEANetDecoder.forward ad.skip_connection_type (decAdapters ad) acts
        (decFinLayers ad) ⟨b, ad.channels, k * ad.ratios.prod⟩
        (ad.ratios.length + 1)).2.1 = ad.ratios.length + 1 ∧
      fusesOf (USEANetDecoder.forward ad.skip_connection_type (decAdapters ad) acts
        (decFinLayers ad) ⟨b, ad.channels, k * ad.ratios.prod⟩
        (ad.ratios.length + 1)).2.2 = [] ∧
      (decFinLayers ad).countP (fun l => l.className == "ELU") = 0 := by
    rcases hfa with h | ⟨s2, h1, h2, h3⟩
    · simp [decFinLayers, h, USEANetDecoder.forward, fusesOf]
    · simp [decFinLayers, h1, USEANetDecoder.forward, Layer.className, h3, fusesOf,
        applyLayer, List.countP_cons]
  have hcount : (decMainLayers ad ++ decFinLayers ad).countP
      (fun l => l.className == "ELU") = ad.ratios.length + 1 := by
    rw [List.countP_append, hfinrun.2.2]
    have hh : (Layer.sconv ad.dimension (2 ^ ad.ratios.length * ad.n_filters)
        ad.kernel_size 1 ::
        (if ad.lstm ≠ 0 then [Layer.slstm (2 ^ ad.ratios.length * ad.n_filters) ad.lstm]
         else [])).countP (fun l => l.className == "ELU") = 0 := by
      by_cases hl : ad.lstm = 0 <;> simp [hl, List.countP_cons, Layer.className]
    have htl : ([Layer.actLayer ad.activation,
        Layer.sconv ad.n_filters ad.channels ad.last_kernel_size 1]).countP
        (fun l => l.className == "ELU") = 1 := by
      simp [List.countP_cons, Layer.className, hd]
    simp only [decMainLayers, List.countP_append, hh, htl,
      countELU_decLayersList ad ad.ratios _ hd]
    omega
  refine ⟨lat, acts, _, _, henc, hlen, hmk, ?_, ?_, ?_⟩
  · rw [hdec]
    dsimp only
    rw [hfinrun.1, hcount]
  · rw [hdec]
    dsimp only
    rw [fusesOf_append, hfinrun.2.1, List.append_nil, fusesOf_decMainOps_fst]
  · intro p c hpc
    have hdecraw : USEANet.decode ad (lat, acts) =
        USEANetDecoder.forward ad.skip_connection_type (decAdapters ad) acts
          (decMainLayers ad ++ decFinLayers ad) lat 0 := by
      simp only [USEANet.decode, hmk]
    rw [hdecraw] at hpc
    exact forward_fuse_consumed ad.skip_connection_type (decAdapters ad) acts
      (decMainLayers ad ++ decFinLayers ad) lat 0 hsct p c
      (mem_of_mem_fusesOf _ p c hpc)

theorem decoder_fusion_reverse_order_witness :
    aeW.activation = "ELU" ∧ adW.activation = "ELU" ∧ (∀ r ∈ aeW.ratios, 0 < r) ∧
    adW.ratios = aeW.ratios ∧ adW.n_filters = aeW.n_filters ∧
    adW.n_filters_encoder = aeW.n_filters ∧ adW.dimension = aeW.dimension ∧
    (adW.skip_connection_type = "cat_linear" ∨ adW.skip_connection_type = "scaled_sum") ∧
    (adW.final_activation = none ∨
      ∃ s, adW.final_activation = some s ∧ s ∈ nnActivationNames ∧ s ≠ "ELU") ∧
    (∃ lat acts L A,
      USEANet.encode aeW ⟨1, aeW.channels, 1 * aeW.ratios.prod⟩ = .ok (lat, acts) ∧
      acts.length = adW.ratios.length + 1 ∧
      USEANetDecoder.mk adW = .ok (L, A) ∧
      (USEANet.decode adW (lat, acts)).2.1 = L.countP (fun l => l.className == "ELU") ∧
      (fusesOf (USEANet.decode adW (lat, acts)).2.2).map Prod.fst =
        List.range (adW.ratios.length + 1) ∧
      (∀ p c, (p, c) ∈ fusesOf (USEANet.decode adW (lat, acts)).2.2 →
        ∃ s, c = some s ∧ pyNegGet acts p = .ok s)) :=
  ⟨rfl, rfl, by decide, rfl, rfl, rfl, rfl, Or.inl rfl, Or.inl rfl,
    decoder_fusion_reverse_order aeW adW 1 1 rfl rfl (by decide) rfl rfl rfl rfl
      (Or.inl rfl) (Or.inl rfl)⟩

/-- C6: for a valid matched encoder/decoder pair (same ratio list with
positive entries, same base filter count, `n_filters_encoder` equal to the
encoder's width, matching latent dimension and channel count, activation
`ELU`, a supported skip-connection type, and a final activation that is
absent or a resolvable non-`ELU` class), encoding a `(b, channels, k·prod)`
tensor and decoding the result yields a tensor of the same shape
`(b, channels, k·prod)`. -/
theorem encode_decode_shape_roundtrip (ae : EncArgs) (ad : DecArgs) (b k : Nat)
    (he : ae.activation = "ELU") (hd : ad.activation = "ELU")
    (hr : ∀ r ∈ ae.ratios, 0 < r)
    (hratios : ad.ratios = ae.ratios) (hnf : ad.n_filters = ae.n_filters)
    (hnfe : ad.n_filters_encoder = ae.n_filters) (hdim : ad.dimension = ae.dimension)
    (hch : ad.channels = ae.channels)
    (hsct : ad.skip_connection_type = "cat_linear" ∨ ad.skip_connection_type = "scaled_sum")
    (hfa : ad.final_activation = none ∨
      ∃ s, ad.final_activation = some s ∧ s ∈ nnActivationNames ∧ s ≠ "ELU") :
    ∃ lat acts,
      USEANet.encode ae ⟨b, ae.channels, k * ae.ratios.prod⟩ = .ok (lat, acts) ∧
      (USEANet.decode ad (lat, acts)).1 = .ok ⟨b, ae.channels, k * ae.ratios.prod⟩ := by
  have hfa2 : ad.final_activation = none ∨
      ∃ s, ad.final_activation = some s ∧ s ∈ nnActivationNames := by
    rcases hfa with h | ⟨s2, h1, h2, _⟩
    · exact Or.inl h
    · exact Or.inr ⟨s2, h1, h2⟩
  obtain ⟨lat, acts, henc, hlen, hmk, hactsl, hdec⟩ :=
    paired_run ae ad b k he hd hr hratios hnf hnfe hdim hsct hfa2
  refine ⟨lat, acts, henc, ?_⟩
  rw [hdec]
  dsimp only
  rcases hfa with h | ⟨s2, h1, h2, h3⟩
  · simp [decFinLayers, h, USEANetDecoder.forward, hch, hratios]
  · simp [decFinLayers, h1, USEANetDecoder.forward, Layer.className, h3, applyLayer,
      hch, hratios]

theorem encode_decode_shape_roundtrip_witness :
    aeW.activation = "ELU" ∧ adW.activation = "ELU" ∧ (∀ r ∈ aeW.ratios, 0 < r) ∧
    adW.ratios = aeW.ratios ∧ adW.n_filters = aeW.n_filters ∧
    adW.n_filters_encoder = aeW.n_filters ∧ adW.dimension = aeW.dimension ∧
    adW.channels = aeW.channels ∧
    (adW.skip_connection_type = "cat_linear" ∨ adW.skip_connection_type = "scaled_sum") ∧
    (adW.final_activation = none ∨
      ∃ s, adW.final_activation = some s ∧ s ∈ nnActivationNames ∧ s ≠ "ELU") ∧
    (∃ lat acts,
      USEANet.encode aeW ⟨1, aeW.channels, 1 * aeW.ratios.prod⟩ = .ok (lat, acts) ∧
      (USEANet.decode adW (lat, acts)).1 = .ok ⟨1, aeW.channels, 1 * aeW.ratios.prod⟩) :=
  ⟨rfl, rfl, by decide, rfl, rfl, rfl, rfl, rfl, Or.inl rfl, Or.inl rfl,
    encode_decode_shape_roundtrip aeW adW 1 1 rfl rfl (by decide) rfl rfl rfl rfl rfl
      (Or.inl rfl) (Or.inl rfl)⟩

/-- C10: constructing the decoder with activation `ELU` and final activation
`ELU` makes the forward pass treat the appended output activation as one more
fusion point: on a matched run the counter reaches `stages + 1` and the
access `activations[-1-i]` (and `adaptation_layers[i]`) is out of bounds, so
forward fails with an IndexError even though the encoder supplied the
expected `stages + 1` activations. -/
theorem decoder_final_elu_index_error (ae : EncArgs) (ad : DecArgs) (b k : Nat)
    (he : ae.activation = "ELU") (hd : ad.activation = "ELU")
    (hr : ∀ r ∈ ae.ratios, 0 < r)
    (hratios : ad.ratios = ae.ratios) (hnf : ad.n_filters = ae.n_filters)
    (hnfe : ad.n_filters_encoder = ae.n_filters) (hdim : ad.dimension = ae.dimension)
    (hsct : ad.skip_connection_type = "cat_linear" ∨ ad.skip_connection_type = "scaled_sum")
    (hfa : ad.final_activation = some "ELU") :
    ∃ lat acts,
      USEANet.encode ae ⟨b, ae.channels, k * ae.ratios.prod⟩ = .ok (lat, acts) ∧
      acts.length = ad.ratios.length + 1 ∧
      (USEANet.decode ad (lat, acts)).1 = .error "IndexError" ∧
      (USEANet.decode ad (lat, acts)).2.1 = ad.ratios.length + 1 := by
  have hfa2 : ad.final_activation = none ∨
      ∃ s, ad.final_activation = some s ∧ s ∈ nnActivationNames :=
    Or.inr ⟨"ELU", hfa, by simp [nnActivationNames]⟩
  obtain ⟨lat, acts, henc, hlen, hmk, hactsl, hdec⟩ :=
    paired_run ae ad b k he hd hr hratios hnf hnfe hdim hsct hfa2
  have hng : pyNegGet acts (ad.ratios.length + 1) = .error "IndexError" := by
    simp [pyNegGet, hlen]
  have hfuse : ∀ x1, fuseStep ad.skip_connection_type (decAdapters ad) acts
      (ad.ratios.length + 1) x1 = .error "IndexError" := by
    intro x1
    rcases hsct with h | h <;> simp [fuseStep, h, hng]
  refine ⟨lat, acts, henc, hlen, ?_, ?_⟩ <;>
    rw [hdec] <;>
    dsimp only <;>
    simp [decFinLayers, hfa, USEANetDecoder.forward, Layer.className, applyLayer, hfuse]

theorem decoder_final_elu_index_error_witness :
    aeW.activation = "ELU" ∧ adE.activation = "ELU" ∧ (∀ r ∈ aeW.ratios, 0 < r) ∧
    adE.ratios = aeW.ratios ∧ adE.n_filters = aeW.n_filters ∧
    adE.n_filters_encoder = aeW.n_filters ∧ adE.dimension = aeW.dimension ∧
    (adE.skip_connection_type = "cat_linear" ∨ adE.skip_connection_type = "scaled_sum") ∧
    adE.final_activation = some "ELU" ∧
    (∃ lat acts,
      USEANet.encode aeW ⟨1, aeW.channels, 1 * aeW.ratios.prod⟩ = .ok (lat, acts) ∧
      acts.length = adE.ratios.length + 1 ∧
      (USEANet.decode adE (lat, acts)).1 = .error "IndexError" ∧
      (USEANet.decode adE (lat, acts)).2.1 = adE.ratios.length + 1) :=
  ⟨rfl, rfl, by decide, rfl, rfl, rfl, rfl, Or.inl rfl, rfl,
    decoder_final_elu_index_error aeW adE 1 1 rfl rfl (by decide) rfl rfl rfl rfl
      (Or.inl rfl) rfl⟩

/-- C9: for every configuration whose activation names a resolvable
nonlinearity class other than `ELU`, the encoder's forward pass returns an
empty activation list, and a decoder built with the same activation performs
no skip fusion on the resulting pair at any point: its fusion counter never
advances and no fusion operation appears in its trace (both forward passes
detect fusion points by comparing class names to the literal `"ELU"`, and
every fusion attempt on the empty activation list fails before the counter
increment). -/
theorem non_elu_no_capture_no_fusion (ae : EncArgs) (ad : DecArgs) (b k : Nat)
    (hne : ae.activation ≠ "ELU") (hacte : ae.activation ∈ nnActivationNames)
    (_had : ad.activation = ae.activation)
    (hr : ∀ r ∈ ae.ratios, 0 < r)
    (hsct : ad.skip_connection_type = "cat_linear" ∨
      ad.skip_connection_type = "scaled_sum") :
    ∃ lat, USEANet.encode ae ⟨b, ae.channels, k * ae.ratios.prod⟩ = .ok (lat, []) ∧
      ∀ z : Shape, (USEANet.decode ad (z, [])).2.1 = 0 ∧
        ∀ op ∈ (USEANet.decode ad (z, [])).2.2, ∀ p c, op ≠ Op.fuse p c := by
  obtain ⟨L, hmk, hfwd⟩ := encoder_run ae b k hr hacte
  have hcaps : encCaps ae b ae.ratios.reverse 1 (k * ae.ratios.prod) = [] :=
    encCaps_nonELU ae b _ _ _ hne
  have hfin : encFinalCap ae b k = [] := by simp [encFinalCap, hne]
  refine ⟨⟨b, ae.dimension, k⟩, ?_, ?_⟩
  · rw [hcaps, hfin] at hfwd
    simp only [USEANet.encode, hmk, hfwd, List.append_nil]
  · intro z
    simp only [USEANet.decode]
    cases hmkd : USEANetDecoder.mk ad with
    | error e => simp
    | ok p =>
        obtain ⟨L2, A2⟩ := p
        exact forward_empty_acts ad.skip_connection_type A2 L2 z 0 hsct

theorem non_elu_no_capture_no_fusion_witness :
    aeR.activation ≠ "ELU" ∧ aeR.activation ∈ nnActivationNames ∧
    adR.activation = aeR.activation ∧ (∀ r ∈ aeR.ratios, 0 < r) ∧
    (adR.skip_connection_type = "cat_linear" ∨
      adR.skip_connection_type = "scaled_sum") ∧
    (∃ lat, USEANet.encode aeR ⟨1, aeR.channels, 1 * aeR.ratios.prod⟩ = .ok (lat, []) ∧
      ∀ z : Shape, (USEANet.decode adR (z, [])).2.1 = 0 ∧
        ∀ op ∈ (USEANet.decode adR (z, [])).2.2, ∀ p c, op ≠ Op.fuse p c) :=
  ⟨by decide, by decide, rfl, by decide, Or.inl rfl,
    non_elu_no_capture_no_fusion aeR adR 1 1 (by decide) (by decide) rfl (by decide)
      (Or.inl rfl)⟩
